import Mathlib

/-!
# secure-text-compare: the LCS diff engine of `src/app.js`

A shallow embedding of the computational core of `src/app.js`
(`toLines`, `computeDiff`, `countType`, `renderDiff`, `appendWordTokens`, `diffWords`,
`tokenizeWords`) and proofs of its contract.

Modelling conventions.

* A JavaScript array is a `List`; `ops.push(x)` is `ops ++ [x]`.
* A JavaScript string is the list of its UTF-16 code units (`JSString`), so
  `===` on strings is equality of lists.
* Index expressions such as `i - 1` are evaluated in `Int`, exactly as
  written, and every array access is checked: an access outside the array
  makes the embedded function return `none`.
* A `for` loop with a fixed range is a fold over that range; a `while` loop
  is iterated with fuel and returns `none` when the fuel runs out while the
  loop condition still holds.
-/

namespace SecureTextCompare

/-! ## Data model -/

/-- The `type` field of an operation object: `'same'`, `'added'` or `'removed'`. -/
inductive OpType where
  | same
  | added
  | removed
deriving DecidableEq, Repr

/-- An operation object `{ type, value }`. -/
structure Op (α : Type) where
  type : OpType
  value : α
deriving DecidableEq, Repr

/-- A JavaScript string, as the list of its UTF-16 code units. -/
abbrev JSString := List Nat

/-- The code units of one Unicode scalar value. -/
def utf16Char (c : Char) : List Nat :=
  if c.toNat < 65536 then [c.toNat]
  else [55296 + (c.toNat - 65536) / 1024, 56320 + (c.toNat - 65536) % 1024]

/-- The JavaScript string denoted by a string literal. -/
def utf16 (s : String) : JSString :=
  s.toList.flatMap utf16Char

/-! ## Checked array access -/

/-- Read `xs[k]`: `none` when `k` is outside `0 .. xs.length - 1`. -/
def idx {β : Type} (xs : List β) (k : Int) : Option β :=
  if 0 ≤ k then xs[k.toNat]? else none

/-- The table `dp`, an array of rows. -/
abbrev Table := List (List Nat)

/-- The table built by `Array.from({ length: m + 1 }, () => new Array(n + 1).fill(0))`. -/
def newTable (m n : Nat) : Table :=
  List.replicate (m + 1) (List.replicate (n + 1) 0)

/-- Read `dp[i][j]`. -/
def Table.read (dp : Table) (i j : Int) : Option Nat :=
  (idx dp i).bind (fun row => idx row j)

/-- Assign `dp[i][j] = v`; `none` when the cell is not in the table. -/
def Table.assign (dp : Table) (i j : Int) (v : Nat) : Option Table :=
  match idx dp i with
  | none => none
  | some row =>
    match idx row j with
    | none => none
    | some _ => some (dp.set i.toNat (row.set j.toNat v))

/-! ## Loops -/

/-- The loop `for (let k = 1; k <= hi; k++) body`. -/
def forLoop {σ : Type} (hi : Nat) (body : Nat → σ → Option σ) (s : σ) : Option σ :=
  (List.range' 1 hi).foldlM (fun st k => body k st) s

/-- The loop `while (cond) body`, iterated at most `fuel` times. -/
def whileLoop {σ : Type} (cond : σ → Bool) (body : σ → Option σ) : Nat → σ → Option σ
  | 0, s => if cond s then none else some s
  | fuel + 1, s => if cond s then (body s).bind (whileLoop cond body fuel) else some s

/-! ## `computeDiff` -/

section ComputeDiff

variable {α : Type} [DecidableEq α]

/-- The body of the inner loop of the table fill (lines 58-62). -/
def fillCell (aLines bLines : List α) (i j : Nat) (dp : Table) : Option Table := do
  let a ← idx aLines ((i : Int) - 1)
  let b ← idx bLines ((j : Int) - 1)
  if a = b then
    let d ← dp.read ((i : Int) - 1) ((j : Int) - 1)
    dp.assign i j (d + 1)
  else
    let u ← dp.read ((i : Int) - 1) j
    let l ← dp.read i ((j : Int) - 1)
    dp.assign i j (max u l)

/-- The table fill (lines 56-64). -/
def fillTable (aLines bLines : List α) (m n : Nat) (dp : Table) : Option Table :=
  forLoop m (fun i dp1 => forLoop n (fun j dp2 => fillCell aLines bLines i j dp2) dp1) dp

/-- The variables `i`, `j` and `ops` of the backtrack. -/
structure BackState (α : Type) where
  i : Nat
  j : Nat
  ops : List (Op α)

/-- The body of the first backtrack loop (lines 72-82). -/
def walkStep (aLines bLines : List α) (dp : Table) (s : BackState α) : Option (BackState α) := do
  let a ← idx aLines ((s.i : Int) - 1)
  let b ← idx bLines ((s.j : Int) - 1)
  if a = b then
    some ⟨s.i - 1, s.j - 1, s.ops ++ [⟨OpType.same, a⟩]⟩
  else
    let u ← dp.read ((s.i : Int) - 1) s.j
    let l ← dp.read s.i ((s.j : Int) - 1)
    if u ≥ l then
      some ⟨s.i - 1, s.j, s.ops ++ [⟨OpType.removed, a⟩]⟩
    else
      some ⟨s.i, s.j - 1, s.ops ++ [⟨OpType.added, b⟩]⟩

/-- The body of the loop flushing the rest of `aLines` (lines 87-88). -/
def flushRemoved (aLines : List α) (s : BackState α) : Option (BackState α) := do
  let a ← idx aLines ((s.i : Int) - 1)
  some ⟨s.i - 1, s.j, s.ops ++ [⟨OpType.removed, a⟩]⟩

/-- The body of the loop flushing the rest of `bLines` (lines 93-94). -/
def flushAdded (bLines : List α) (s : BackState α) : Option (BackState α) := do
  let b ← idx bLines ((s.j : Int) - 1)
  some ⟨s.i, s.j - 1, s.ops ++ [⟨OpType.added, b⟩]⟩

/-- The function `computeDiff` (lines 49-99). Each `while` loop gets fuel `m + n`. -/
def computeDiff (aLines bLines : List α) : Option (List (Op α)) := do
  let m := aLines.length
  let n := bLines.length
  let dp ← fillTable aLines bLines m n (newTable m n)
  let s1 ← whileLoop (fun s => decide (s.i > 0) && decide (s.j > 0))
    (walkStep aLines bLines dp) (m + n) ⟨m, n, []⟩
  let s2 ← whileLoop (fun s => decide (s.i > 0)) (flushRemoved aLines) (m + n) s1
  let s3 ← whileLoop (fun s => decide (s.j > 0)) (flushAdded bLines) (m + n) s2
  some s3.ops.reverse

/-- The three backtrack loops, run one after the other. -/
def backtrack (aLines bLines : List α) (dp : Table) (f g : Nat) (s : BackState α) :
    Option (BackState α) :=
  (whileLoop (fun s => decide (s.i > 0) && decide (s.j > 0)) (walkStep aLines bLines dp) f s).bind
    (fun s1 => (whileLoop (fun s => decide (s.i > 0)) (flushRemoved aLines) g s1).bind
      (fun s2 => whileLoop (fun s => decide (s.j > 0)) (flushAdded bLines) g s2))

/-- The function `countType` (lines 102-108). -/
def countType (diffOps : List (Op α)) (type : OpType) : Nat :=
  diffOps.foldl (fun count op => if op.type = type then count + 1 else count) 0

/-- The values of the `'same'` and `'removed'` operations, in order. -/
def oldSide (ops : List (Op α)) : List α :=
  (ops.filter (fun o => decide (o.type = OpType.same ∨ o.type = OpType.removed))).map Op.value

/-- The values of the `'same'` and `'added'` operations, in order. -/
def newSide (ops : List (Op α)) : List α :=
  (ops.filter (fun o => decide (o.type = OpType.same ∨ o.type = OpType.added))).map Op.value

/-- The values of the `'same'` operations, in order. -/
def sameValues (ops : List (Op α)) : List α :=
  (ops.filter (fun o => decide (o.type = OpType.same))).map Op.value

end ComputeDiff

/-! ## `String.prototype.split` with a regular expression -/

/-- The class `\s` of the regular expressions of the source: the code units that are
white space or line terminators. -/
def isWhiteSpace (c : Nat) : Bool :=
  c == 9 || c == 10 || c == 11 || c == 12 || c == 13 || c == 32 || c == 160 || c == 5760 ||
  (decide (8192 ≤ c) && decide (c ≤ 8202)) || c == 8232 || c == 8233 || c == 8239 ||
  c == 8287 || c == 12288 || c == 65279

/-- One attempt to match a regular expression at the start of the remaining text:
`none` when it does not match there, else the number of code units matched and the
captured groups. -/
abbrev Matcher := JSString → Option (Nat × List JSString)

/-- The expression `/\r?\n/`: a line feed, or a carriage return and a line feed. -/
def lineBreak : Matcher := fun s =>
  if s.take 2 = [13, 10] then some (2, [])
  else if s.take 1 = [10] then some (1, [])
  else none

/-- The expression `/(\s+)/`: the longest run of white space, captured. -/
def whiteSpaceRun : Matcher := fun s =>
  if s.takeWhile isWhiteSpace = [] then none
  else some ((s.takeWhile isWhiteSpace).length, [s.takeWhile isWhiteSpace])

/-- The loop of `split`: `seg` is the text between the end `p` of the last separator and the
position `q` being tried, `rest` the text from `q` on. Where the expression matches (and the
match does not end at `p`) the segment and the captures are appended to the result and the
scan resumes after the match; otherwise `q` advances by one code unit. `none` when the
fuel runs out before the end of the text. -/
def splitLoop (m : Matcher) : Nat → JSString → JSString → Option (List JSString)
  | _, seg, [] => some [seg]
  | 0, _, _ :: _ => none
  | fuel + 1, seg, c :: rest =>
    match m (c :: rest) with
    | none => splitLoop m fuel (seg ++ [c]) rest
    | some (len, caps) =>
      if len = 0 ∧ seg = [] then splitLoop m fuel (seg ++ [c]) rest
      else (splitLoop m fuel [] ((c :: rest).drop len)).map (fun toks => seg :: (caps ++ toks))

/-- The call `s.split(m)` for a regular expression `m`, without a limit. -/
def split (m : Matcher) (s : JSString) : Option (List JSString) :=
  if s = [] then (if (m []).isSome then some [] else some [s])
  else splitLoop m (2 * s.length) [] s

/-- The function `toLines` (lines 43-46). -/
def toLines (text : JSString) : Option (List JSString) :=
  if text = [] then some [] else split lineBreak text

/-- The function `tokenizeWords` (lines 285-288). -/
def tokenizeWords (line : JSString) : Option (List JSString) :=
  if line = [] then some [] else split whiteSpaceRun line

/-- The tokens of `rest`, scanned from a non-white-space segment `seg` already read: the
segment grows over non-white-space code units and is closed, together with the longest
run of white space, where white space starts. -/
inductive Tokens : JSString → JSString → List JSString → Prop where
  | done (seg : JSString) : Tokens seg [] [seg]
  | word (seg : JSString) (c : Nat) (rest : JSString) (toks : List JSString) :
      isWhiteSpace c = false → Tokens (seg ++ [c]) rest toks → Tokens seg (c :: rest) toks
  | space (seg : JSString) (c : Nat) (rest : JSString) (toks : List JSString) :
      isWhiteSpace c = true → Tokens [] (rest.dropWhile isWhiteSpace) toks →
      Tokens seg (c :: rest) (seg :: (c :: rest.takeWhile isWhiteSpace) :: toks)

/-- The class of the token at position `k`: white space at odd positions, other code
units at even positions. -/
def tokenClass (k : Nat) (c : Nat) : Bool :=
  if k % 2 = 1 then isWhiteSpace c else !isWhiteSpace c

/-- The text `tok` standing between `before` and `after` is a maximal run of class `p`:
all its code units are of class `p`, and neither the code unit just before it nor the one
just after it is. -/
def IsMaximalRun (p : Nat → Bool) (before tok after : JSString) : Prop :=
  (∀ c ∈ tok, p c = true) ∧ (∀ c, before.getLast? = some c → p c = false) ∧
  (∀ c, after.head? = some c → p c = false)

/-- A separator: `"\r\n"` or `"\n"`. -/
def separator (crlf : Bool) : JSString :=
  if crlf then [13, 10] else [10]

/-- The text made of the line `first` and then, for each entry of `more`, a separator and
a line. -/
def joinLines (first : JSString) (more : List (Bool × JSString)) : JSString :=
  first ++ (more.map (fun p => separator p.1 ++ p.2)).flatten

/-- The string holds neither `"\n"` nor `"\r"`. -/
def NoBreak (l : JSString) : Prop :=
  ∀ c ∈ l, c ≠ 10 ∧ c ≠ 13

/-! ## The script as a recursion on the reversed inputs -/

section Reference

variable {α : Type} [DecidableEq α]

/-- Length of a longest common subsequence, by the recurrence of the table. -/
def lcsLen : List α → List α → Nat
  | [], _ => 0
  | _ :: _, [] => 0
  | a :: as, b :: bs =>
    if a = b then lcsLen as bs + 1
    else max (lcsLen as (b :: bs)) (lcsLen (a :: as) bs)
termination_by xs ys => xs.length + ys.length

/-- The operations in the order in which the backtrack pushes them, for the
reversed inputs: the head of each list is the last line not yet consumed. -/
def pushed : List α → List α → List (Op α)
  | [], [] => []
  | a :: as, [] => ⟨OpType.removed, a⟩ :: pushed as []
  | [], b :: bs => ⟨OpType.added, b⟩ :: pushed [] bs
  | a :: as, b :: bs =>
    if a = b then ⟨OpType.same, a⟩ :: pushed as bs
    else if lcsLen as (b :: bs) ≥ lcsLen (a :: as) bs then ⟨OpType.removed, a⟩ :: pushed as (b :: bs)
    else ⟨OpType.added, b⟩ :: pushed (a :: as) bs
termination_by xs ys => xs.length + ys.length

/-- The value the filled table holds at row `i`, column `j`. -/
def cellValue (aLines bLines : List α) (i j : Nat) : Nat :=
  lcsLen (aLines.take i).reverse (bLines.take j).reverse

/-- The table with `m + 1` rows and `n + 1` columns holding `f r c` at row `r`, column `c`. -/
def tableOf (f : Nat → Nat → Nat) (m n : Nat) : Table :=
  (List.range (m + 1)).map (fun r => (List.range (n + 1)).map (f r))

/-- The table after the fill has reached row `i`, column `j`. -/
def partialFill (aLines bLines : List α) (i j : Nat) (r c : Nat) : Nat :=
  if r < i ∨ (r = i ∧ c ≤ j) then cellValue aLines bLines r c else 0

end Reference

/-! ## The pairing scan of `renderDiff` -/

section Render

variable {α : Type} [DecidableEq α]

/-- What the scan appends to the fragment: `plain op` for `renderPlainLine(frag, op)`,
`modified oldLine newLine removedFirst` for `renderModifiedPair(frag, oldLine, newLine)`,
where `removedFirst` tells which branch made the call: `true` for the removed-then-added
branch (lines 125-130), `false` for the added-then-removed branch (lines 133-138). -/
inductive Item (α : Type) where
  | plain (op : Op α)
  | modified (oldLine newLine : α) (removedFirst : Bool)
deriving DecidableEq, Repr

/-- The variables `i` and `changedPairs` of `renderDiff`, and the items appended to `frag`. -/
structure ScanState (α : Type) where
  i : Nat
  changedPairs : Nat
  frag : List (Item α)

/-- The body of the loop of `renderDiff` (lines 121-142). `next` is `diffOps[i + 1]`, which
is `undefined` (`none`) at the last operation. -/
def scanStep (diffOps : List (Op α)) (s : ScanState α) : Option (ScanState α) := do
  let current ← idx diffOps s.i
  let next := idx diffOps ((s.i : Int) + 1)
  match next with
  | some nx =>
    if current.type = OpType.removed ∧ nx.type = OpType.added then
      some ⟨s.i + 2, s.changedPairs + 1, s.frag ++ [Item.modified current.value nx.value true]⟩
    else if current.type = OpType.added ∧ nx.type = OpType.removed then
      some ⟨s.i + 2, s.changedPairs + 1, s.frag ++ [Item.modified nx.value current.value false]⟩
    else
      some ⟨s.i + 1, s.changedPairs, s.frag ++ [Item.plain current]⟩
  | none =>
    some ⟨s.i + 1, s.changedPairs, s.frag ++ [Item.plain current]⟩

/-- The function `renderDiff` (lines 111-147): the items appended to the container and the
returned `changedPairs`. The loop gets fuel `diffOps.length`. -/
def renderDiff (diffOps : List (Op α)) : Option (List (Item α) × Nat) := do
  let s ← whileLoop (fun s => decide (s.i < diffOps.length)) (scanStep diffOps)
    diffOps.length ⟨0, 0, []⟩
  some (s.frag, s.changedPairs)

/-- The operations an item stands for, in their order in the list. -/
def Item.expand : Item α → List (Op α)
  | Item.plain op => [op]
  | Item.modified oldLine newLine true => [⟨OpType.removed, oldLine⟩, ⟨OpType.added, newLine⟩]
  | Item.modified oldLine newLine false => [⟨OpType.added, newLine⟩, ⟨OpType.removed, oldLine⟩]

/-- Whether the item is a modified pair. -/
def Item.isModified : Item α → Bool
  | Item.plain _ => false
  | Item.modified _ _ _ => true

/-- The items of the scan, by recursion on the operations not yet consumed. -/
def scanned : List (Op α) → List (Item α)
  | [] => []
  | [o] => [Item.plain o]
  | o1 :: o2 :: rest =>
    if o1.type = OpType.removed ∧ o2.type = OpType.added then
      Item.modified o1.value o2.value true :: scanned rest
    else if o1.type = OpType.added ∧ o2.type = OpType.removed then
      Item.modified o2.value o1.value false :: scanned rest
    else Item.plain o1 :: scanned (o2 :: rest)

end Render

/-! ## `diffWords` and `appendWordTokens` -/

/-- The function `diffWords` (lines 231-282). Each `while` loop gets fuel `m + n`. -/
def diffWords (oldLine newLine : JSString) : Option (List (Op JSString)) := do
  let a ← tokenizeWords oldLine
  let b ← tokenizeWords newLine
  let m := a.length
  let n := b.length
  let dp0 := newTable m n
  let dp ← forLoop m (fun i dp1 => forLoop n (fun j dp2 => do
      let x ← idx a ((i : Int) - 1)
      let y ← idx b ((j : Int) - 1)
      if x = y then
        let d ← dp2.read ((i : Int) - 1) ((j : Int) - 1)
        dp2.assign i j (d + 1)
      else
        let u ← dp2.read ((i : Int) - 1) j
        let l ← dp2.read i ((j : Int) - 1)
        dp2.assign i j (max u l)) dp1) dp0
  let s1 ← whileLoop (fun (s : BackState JSString) => decide (s.i > 0) && decide (s.j > 0)) (fun s => do
      let x ← idx a ((s.i : Int) - 1)
      let y ← idx b ((s.j : Int) - 1)
      if x = y then
        some ⟨s.i - 1, s.j - 1, s.ops ++ [⟨OpType.same, x⟩]⟩
      else
        let u ← dp.read ((s.i : Int) - 1) s.j
        let l ← dp.read s.i ((s.j : Int) - 1)
        if u ≥ l then
          some ⟨s.i - 1, s.j, s.ops ++ [⟨OpType.removed, x⟩]⟩
        else
          some ⟨s.i, s.j - 1, s.ops ++ [⟨OpType.added, y⟩]⟩) (m + n) ⟨m, n, []⟩
  let s2 ← whileLoop (fun (s : BackState JSString) => decide (s.i > 0)) (fun s => do
      let x ← idx a ((s.i : Int) - 1)
      some ⟨s.i - 1, s.j, s.ops ++ [⟨OpType.removed, x⟩]⟩) (m + n) s1
  let s3 ← whileLoop (fun (s : BackState JSString) => decide (s.j > 0)) (fun s => do
      let y ← idx b ((s.j : Int) - 1)
      some ⟨s.i, s.j - 1, s.ops ++ [⟨OpType.added, y⟩]⟩) (m + n) s2
  some s3.ops.reverse

/-- A `span` element: its `className` (empty when none is set) and its `textContent`. -/
structure Span where
  className : String
  textContent : JSString
deriving DecidableEq, Repr

/-- The function `appendWordTokens` (lines 204-228): the children of `lineEl` after the
call. -/
def appendWordTokens (lineEl : List Span) (tokens : List (Op JSString)) (focusType : OpType) :
    List Span :=
  tokens.foldl (fun children token =>
    if token.value = [] then children
    else if token.type ≠ OpType.same ∧ token.type ≠ focusType then children
    else if token.type = OpType.same then children ++ [⟨"", token.value⟩]
    else if token.type = OpType.added ∧ focusType = OpType.added then
      children ++ [⟨"diff-word diff-word-added", token.value⟩]
    else if token.type = OpType.removed ∧ focusType = OpType.removed then
      children ++ [⟨"diff-word diff-word-removed", token.value⟩]
    else children) lineEl

/-- The text shown by a list of `span` elements. -/
def renderedText (spans : List Span) : JSString :=
  (spans.map Span.textContent).flatten

/-! ## Access lemmas -/

/-- A checked read fails exactly when the index is outside `0 .. xs.length - 1`. -/
theorem idx_eq_none_iff {β : Type} (xs : List β) (k : Int) :
    idx xs k = none ↔ k < 0 ∨ (xs.length : Int) ≤ k := by
  unfold idx
  by_cases hk : 0 ≤ k
  · simp only [hk, if_true, List.getElem?_eq_none_iff]
    omega
  · simp only [hk, if_false, true_iff]
    omega

theorem idx_natCast {β : Type} (xs : List β) (k : Nat) : idx xs (k : Int) = xs[k]? := by
  simp [idx]

theorem tableOf_getElem? (f : Nat → Nat → Nat) (m n r : Nat) (hr : r ≤ m) :
    (tableOf f m n)[r]? = some ((List.range (n + 1)).map (f r)) := by
  simp [tableOf, List.getElem?_map, List.getElem?_range (Nat.lt_succ_of_le hr)]

theorem tableOf_read (f : Nat → Nat → Nat) (m n r c : Nat) (hr : r ≤ m) (hc : c ≤ n) :
    (tableOf f m n).read (r : Int) (c : Int) = some (f r c) := by
  simp [Table.read, idx_natCast, tableOf_getElem? f m n r hr, List.getElem?_map,
    List.getElem?_range (Nat.lt_succ_of_le hc)]

theorem tableOf_congr (f g : Nat → Nat → Nat) (m n : Nat)
    (h : ∀ r c, r ≤ m → c ≤ n → f r c = g r c) : tableOf f m n = tableOf g m n := by
  unfold tableOf
  apply List.map_congr_left
  intro r hr
  apply List.map_congr_left
  intro c hc
  exact h r c (Nat.le_of_lt_succ (List.mem_range.mp hr)) (Nat.le_of_lt_succ (List.mem_range.mp hc))

theorem tableOf_assign (f : Nat → Nat → Nat) (m n r c v : Nat) (hr : r ≤ m) (hc : c ≤ n) :
    (tableOf f m n).assign (r : Int) (c : Int) v
      = some (tableOf (fun r1 c1 => if r1 = r ∧ c1 = c then v else f r1 c1) m n) := by
  have hrow : idx (tableOf f m n) (r : Int) = some ((List.range (n + 1)).map (f r)) := by
    rw [idx_natCast, tableOf_getElem? f m n r hr]
  have hcell : idx ((List.range (n + 1)).map (f r)) (c : Int) = some (f r c) := by
    simp [idx_natCast, List.getElem?_map, List.getElem?_range (Nat.lt_succ_of_le hc)]
  simp only [Table.assign, hrow, hcell, Int.toNat_ofNat]
  congr 1
  apply List.ext_getElem?
  intro k
  by_cases hk : k ≤ m
  · rw [tableOf_getElem? _ m n k hk]
    by_cases hkr : k = r
    · subst hkr
      rw [List.getElem?_set_self (by simp [tableOf]; omega)]
      congr 1
      apply List.ext_getElem?
      intro q
      by_cases hq : q ≤ n
      · by_cases hqc : q = c
        · subst hqc
          rw [List.getElem?_set_self (by simp; omega)]
          simp [List.getElem?_map, List.getElem?_range (Nat.lt_succ_of_le hq)]
        · rw [List.getElem?_set_ne (Ne.symm hqc)]
          simp [List.getElem?_map, List.getElem?_range (Nat.lt_succ_of_le hq), hqc]
      · have h1 : n + 1 ≤ q := by omega
        rw [List.getElem?_eq_none (by simpa using h1), List.getElem?_eq_none (by simpa using h1)]
    · rw [List.getElem?_set_ne (Ne.symm hkr), tableOf_getElem? _ m n k hk]
      simp [hkr]
  · have h1 : m + 1 ≤ k := by omega
    rw [List.getElem?_eq_none (by simpa [tableOf] using h1),
      List.getElem?_eq_none (by simpa [tableOf] using h1)]

theorem newTable_eq (m n : Nat) : newTable m n = tableOf (fun _ _ => 0) m n := by
  unfold newTable tableOf
  apply List.ext_getElem?
  intro k
  by_cases hk : k < m + 1
  · simp [List.getElem?_replicate, List.getElem?_map, List.getElem?_range hk, hk]
  · rw [List.getElem?_eq_none (by simpa using hk), List.getElem?_eq_none (by simpa using hk)]

/-! ## Loop lemmas -/

theorem forLoop_zero {σ : Type} (body : Nat → σ → Option σ) (s : σ) :
    forLoop 0 body s = some s := by
  simp [forLoop]

theorem forLoop_succ {σ : Type} (hi : Nat) (body : Nat → σ → Option σ) (s : σ) :
    forLoop (hi + 1) body s = (forLoop hi body s).bind (body (hi + 1)) := by
  unfold forLoop
  rw [List.range'_concat, List.foldlM_append]
  simp [Nat.add_comm]

/-- A `for` loop whose body takes `st k` to `st (k + 1)` takes `st 0` to `st hi`. -/
theorem forLoop_chain {σ : Type} (hi : Nat) (body : Nat → σ → Option σ) (st : Nat → σ)
    (h : ∀ k, k < hi → body (k + 1) (st k) = some (st (k + 1))) :
    forLoop hi body (st 0) = some (st hi) := by
  induction hi with
  | zero => exact forLoop_zero body (st 0)
  | succ hi ih =>
    rw [forLoop_succ, ih (fun k hk => h k (Nat.lt_succ_of_lt hk))]
    exact h hi (Nat.lt_succ_self hi)

/-! ## The table fill computes the longest-common-subsequence lengths -/

section Fill

variable {α : Type} [DecidableEq α]

theorem lcsLen_nil_right (xs : List α) : lcsLen xs [] = 0 := by
  cases xs <;> simp [lcsLen]

theorem cellValue_zero_left (aLines bLines : List α) (c : Nat) :
    cellValue aLines bLines 0 c = 0 := by
  simp [cellValue, lcsLen]

theorem cellValue_zero_right (aLines bLines : List α) (r : Nat) :
    cellValue aLines bLines r 0 = 0 := by
  simp [cellValue, lcsLen_nil_right]

omit [DecidableEq α] in
theorem take_succ_reverse (xs : List α) (k : Nat) (a : α) (h : xs[k]? = some a) :
    (xs.take (k + 1)).reverse = a :: (xs.take k).reverse := by
  rw [List.take_succ, h]
  simp

theorem cellValue_succ (aLines bLines : List α) (i j : Nat) (a b : α)
    (ha : aLines[i]? = some a) (hb : bLines[j]? = some b) :
    cellValue aLines bLines (i + 1) (j + 1)
      = if a = b then cellValue aLines bLines i j + 1
        else max (cellValue aLines bLines i (j + 1)) (cellValue aLines bLines (i + 1) j) := by
  unfold cellValue
  rw [take_succ_reverse aLines i a ha, take_succ_reverse bLines j b hb, lcsLen]

theorem int_succ_sub_one (k : Nat) : (((k + 1 : Nat) : Int) - 1) = (k : Int) := by
  omega

theorem fillCell_partialFill (aLines bLines : List α) (i j : Nat)
    (hi : i < aLines.length) (hj : j < bLines.length) :
    fillCell aLines bLines (i + 1) (j + 1)
        (tableOf (partialFill aLines bLines (i + 1) j) aLines.length bLines.length)
      = some (tableOf (partialFill aLines bLines (i + 1) (j + 1)) aLines.length bLines.length) := by
  have ha : aLines[i]? = some aLines[i] := List.getElem?_eq_getElem hi
  have hb : bLines[j]? = some bLines[j] := List.getElem?_eq_getElem hj
  have hrec := cellValue_succ aLines bLines i j _ _ ha hb
  have hd : (tableOf (partialFill aLines bLines (i + 1) j) aLines.length bLines.length).read
      (i : Int) (j : Int) = some (cellValue aLines bLines i j) := by
    rw [tableOf_read _ _ _ _ _ (by omega) (by omega)]
    simp [partialFill]
  have hu : (tableOf (partialFill aLines bLines (i + 1) j) aLines.length bLines.length).read
      (i : Int) ((j + 1 : Nat) : Int) = some (cellValue aLines bLines i (j + 1)) := by
    rw [tableOf_read _ _ _ _ _ (by omega) (by omega)]
    simp [partialFill]
  have hl : (tableOf (partialFill aLines bLines (i + 1) j) aLines.length bLines.length).read
      ((i + 1 : Nat) : Int) (j : Int) = some (cellValue aLines bLines (i + 1) j) := by
    rw [tableOf_read _ _ _ _ _ (by omega) (by omega)]
    simp [partialFill]
  have hcongr : ∀ v, v = cellValue aLines bLines (i + 1) (j + 1) →
      tableOf (fun r1 c1 => if r1 = i + 1 ∧ c1 = j + 1 then v
          else partialFill aLines bLines (i + 1) j r1 c1) aLines.length bLines.length
        = tableOf (partialFill aLines bLines (i + 1) (j + 1)) aLines.length bLines.length := by
    intro v hv
    apply tableOf_congr
    intro r c _ _
    by_cases hrc : r = i + 1 ∧ c = j + 1
    · obtain ⟨h1, h2⟩ := hrc
      subst h1 h2
      simp [partialFill, hv]
    · simp only [hrc, if_false, partialFill]
      have hiff : (r < i + 1 ∨ r = i + 1 ∧ c ≤ j) ↔ (r < i + 1 ∨ r = i + 1 ∧ c ≤ j + 1) := by
        constructor
        · rintro (h | ⟨h1, h2⟩)
          · exact Or.inl h
          · exact Or.inr ⟨h1, by omega⟩
        · rintro (h | ⟨h1, h2⟩)
          · exact Or.inl h
          · refine Or.inr ⟨h1, ?_⟩
            by_contra hne
            exact hrc ⟨h1, by omega⟩
      simp only [hiff]
  unfold fillCell
  simp only [int_succ_sub_one, idx_natCast, ha, hb, Option.bind_eq_bind, Option.some_bind]
  by_cases hab : aLines[i] = bLines[j]
  · simp only [hab, if_true, hd, Option.some_bind]
    rw [tableOf_assign _ _ _ _ _ _ (by omega) (by omega)]
    rw [hcongr _ (by rw [hrec]; simp [hab])]
  · simp only [hab, if_false, hu, hl, Option.some_bind]
    rw [tableOf_assign _ _ _ _ _ _ (by omega) (by omega)]
    rw [hcongr _ (by rw [hrec]; simp [hab])]

theorem fillRow_partialFill (aLines bLines : List α) (i : Nat) (hi : i < aLines.length) :
    forLoop bLines.length (fun j dp2 => fillCell aLines bLines (i + 1) j dp2)
        (tableOf (partialFill aLines bLines (i + 1) 0) aLines.length bLines.length)
      = some (tableOf (partialFill aLines bLines (i + 1 + 1) 0) aLines.length bLines.length) := by
  have hlast : tableOf (partialFill aLines bLines (i + 1 + 1) 0) aLines.length bLines.length
      = tableOf (partialFill aLines bLines (i + 1) bLines.length) aLines.length bLines.length := by
    apply tableOf_congr
    intro r c _ hc
    unfold partialFill
    by_cases h1 : r < i + 1 + 1 ∨ r = i + 1 + 1 ∧ c ≤ 0
    · by_cases h2 : r < i + 1 ∨ r = i + 1 ∧ c ≤ bLines.length
      · rw [if_pos h1, if_pos h2]
      · have hr : c = 0 := by omega
        rw [if_pos h1, if_neg h2, hr]
        exact cellValue_zero_right aLines bLines r
    · have h2 : ¬ (r < i + 1 ∨ r = i + 1 ∧ c ≤ bLines.length) := by omega
      rw [if_neg h1, if_neg h2]
  rw [hlast]
  exact forLoop_chain bLines.length (fun j dp2 => fillCell aLines bLines (i + 1) j dp2)
    (fun j => tableOf (partialFill aLines bLines (i + 1) j) aLines.length bLines.length)
    (fun j hj => fillCell_partialFill aLines bLines i j hi hj)

/-- The fill returns the table of longest-common-subsequence lengths of all prefixes. -/
theorem fillTable_eq (aLines bLines : List α) :
    fillTable aLines bLines aLines.length bLines.length (newTable aLines.length bLines.length)
      = some (tableOf (cellValue aLines bLines) aLines.length bLines.length) := by
  have hfirst : newTable aLines.length bLines.length
      = tableOf (partialFill aLines bLines (0 + 1) 0) aLines.length bLines.length := by
    rw [newTable_eq]
    apply tableOf_congr
    intro r c _ _
    unfold partialFill
    by_cases h1 : r < 0 + 1 ∨ r = 0 + 1 ∧ c ≤ 0
    · rw [if_pos h1]
      rcases h1 with h | ⟨_, h⟩
      · have hr : r = 0 := by omega
        rw [hr, cellValue_zero_left]
      · have hc : c = 0 := by omega
        rw [hc, cellValue_zero_right]
    · rw [if_neg h1]
  have hlast : tableOf (cellValue aLines bLines) aLines.length bLines.length
      = tableOf (partialFill aLines bLines (aLines.length + 1) 0) aLines.length bLines.length := by
    apply tableOf_congr
    intro r c hr _
    have h1 : r < aLines.length + 1 ∨ r = aLines.length + 1 ∧ c ≤ 0 := by omega
    unfold partialFill
    rw [if_pos h1]
  rw [hfirst, hlast]
  unfold fillTable
  exact forLoop_chain aLines.length _
    (fun i => tableOf (partialFill aLines bLines (i + 1) 0) aLines.length bLines.length)
    (fun i hi => fillRow_partialFill aLines bLines i hi)

end Fill

/-! ## The backtrack pushes `pushed` -/

section Backtrack

variable {α : Type} [DecidableEq α]

theorem pushed_nil_right (xs : List α) :
    pushed xs [] = xs.map (fun a => (⟨OpType.removed, a⟩ : Op α)) := by
  induction xs with
  | nil => simp [pushed]
  | cons a as ih => simp [pushed, ih]

theorem pushed_nil_left (ys : List α) :
    pushed [] ys = ys.map (fun b => (⟨OpType.added, b⟩ : Op α)) := by
  induction ys with
  | nil => simp [pushed]
  | cons b bs ih => simp [pushed, ih]

omit [DecidableEq α] in
theorem flushRemoved_loop (aLines : List α) (g : Nat) :
    ∀ (i j : Nat) (ops : List (Op α)), i ≤ aLines.length → i ≤ g →
      whileLoop (fun s => decide (s.i > 0)) (flushRemoved aLines) g ⟨i, j, ops⟩
        = some ⟨0, j, ops ++ (aLines.take i).reverse.map (fun a => (⟨OpType.removed, a⟩ : Op α))⟩ := by
  induction g with
  | zero =>
    intro i j ops _ hg
    have hi : i = 0 := by omega
    subst hi
    simp [whileLoop]
  | succ g ih =>
    intro i j ops hi hg
    cases i with
    | zero => simp [whileLoop]
    | succ i =>
      have ha : aLines[i]? = some aLines[i] := List.getElem?_eq_getElem (by omega)
      simp only [whileLoop, flushRemoved, int_succ_sub_one, idx_natCast, ha, gt_iff_lt,
        Nat.zero_lt_succ, decide_True, if_true, Option.bind_eq_bind, Option.some_bind,
        Nat.add_sub_cancel]
      rw [ih i j _ (by omega) (by omega), take_succ_reverse aLines i _ ha]
      simp

omit [DecidableEq α] in
theorem flushAdded_loop (bLines : List α) (g : Nat) :
    ∀ (i j : Nat) (ops : List (Op α)), j ≤ bLines.length → j ≤ g →
      whileLoop (fun s => decide (s.j > 0)) (flushAdded bLines) g ⟨i, j, ops⟩
        = some ⟨i, 0, ops ++ (bLines.take j).reverse.map (fun b => (⟨OpType.added, b⟩ : Op α))⟩ := by
  induction g with
  | zero =>
    intro i j ops _ hg
    have hj : j = 0 := by omega
    subst hj
    simp [whileLoop]
  | succ g ih =>
    intro i j ops hj hg
    cases j with
    | zero => simp [whileLoop]
    | succ j =>
      have hb : bLines[j]? = some bLines[j] := List.getElem?_eq_getElem (by omega)
      simp only [whileLoop, flushAdded, int_succ_sub_one, idx_natCast, hb, gt_iff_lt,
        Nat.zero_lt_succ, decide_True, if_true, Option.bind_eq_bind, Option.some_bind,
        Nat.add_sub_cancel]
      rw [ih i j _ (by omega) (by omega), take_succ_reverse bLines j _ hb]
      simp

theorem backtrack_done (aLines bLines : List α) (dp : Table) (f g : Nat) (i j : Nat)
    (ops : List (Op α)) (hi : i ≤ aLines.length) (hj : j ≤ bLines.length) (hig : i ≤ g)
    (hjg : j ≤ g) (h0 : i = 0 ∨ j = 0) :
    backtrack aLines bLines dp f g ⟨i, j, ops⟩
      = some ⟨0, 0, ops ++ pushed (aLines.take i).reverse (bLines.take j).reverse⟩ := by
  have hstop : whileLoop (fun s => decide (s.i > 0) && decide (s.j > 0))
      (walkStep aLines bLines dp) f ⟨i, j, ops⟩ = some ⟨i, j, ops⟩ := by
    cases f <;> rcases h0 with h | h <;> subst h <;> simp [whileLoop]
  unfold backtrack
  rw [hstop, Option.some_bind, flushRemoved_loop aLines g i j ops hi hig, Option.some_bind,
    flushAdded_loop bLines g 0 j _ hj hjg]
  rcases h0 with h | h
  · subst h
    simp [pushed_nil_left]
  · subst h
    simp [pushed_nil_right]

theorem backtrack_eq (aLines bLines : List α) (g : Nat) (hmg : aLines.length ≤ g)
    (hng : bLines.length ≤ g) (f : Nat) :
    ∀ (i j : Nat) (ops : List (Op α)), i ≤ aLines.length → j ≤ bLines.length → i + j ≤ f →
      backtrack aLines bLines (tableOf (cellValue aLines bLines) aLines.length bLines.length)
          f g ⟨i, j, ops⟩
        = some ⟨0, 0, ops ++ pushed (aLines.take i).reverse (bLines.take j).reverse⟩ := by
  induction f with
  | zero =>
    intro i j ops hi hj hf
    exact backtrack_done aLines bLines _ 0 g i j ops hi hj (by omega) (by omega) (by omega)
  | succ f ih =>
    intro i j ops hi hj hf
    cases i with
    | zero => exact backtrack_done aLines bLines _ _ g 0 j ops hi hj (by omega) (by omega) (Or.inl rfl)
    | succ i =>
      cases j with
      | zero =>
        exact backtrack_done aLines bLines _ _ g (i + 1) 0 ops hi hj (by omega) (by omega) (Or.inr rfl)
      | succ j =>
        have ha : aLines[i]? = some aLines[i] := List.getElem?_eq_getElem (by omega)
        have hb : bLines[j]? = some bLines[j] := List.getElem?_eq_getElem (by omega)
        have hu := tableOf_read (cellValue aLines bLines) aLines.length bLines.length i (j + 1)
          (by omega) (by omega)
        have hl := tableOf_read (cellValue aLines bLines) aLines.length bLines.length (i + 1) j
          (by omega) (by omega)
        rw [take_succ_reverse aLines i _ ha, take_succ_reverse bLines j _ hb, pushed]
        unfold backtrack
        simp only [whileLoop, walkStep, int_succ_sub_one, idx_natCast, ha, hb, gt_iff_lt,
          Nat.zero_lt_succ, decide_True, Bool.and_self, if_true, Option.bind_eq_bind,
          Option.some_bind, Nat.add_sub_cancel, hu, hl]
        by_cases hab : aLines[i] = bLines[j]
        · simp only [hab, if_true, Option.some_bind]
          have h := ih i j (ops ++ [⟨OpType.same, bLines[j]⟩]) (by omega) (by omega) (by omega)
          unfold backtrack at h
          rw [h]
          simp
        · simp only [hab, if_false]
          by_cases hge : cellValue aLines bLines i (j + 1) ≥ cellValue aLines bLines (i + 1) j
          · have hge2 : lcsLen (aLines.take i).reverse (bLines[j] :: (bLines.take j).reverse)
                ≥ lcsLen (aLines[i] :: (aLines.take i).reverse) (bLines.take j).reverse := by
              simpa [cellValue, take_succ_reverse aLines i _ ha, take_succ_reverse bLines j _ hb]
                using hge
            simp only [hge, hge2, if_true, Option.some_bind]
            have h := ih i (j + 1) (ops ++ [⟨OpType.removed, aLines[i]⟩]) (by omega) (by omega)
              (by omega)
            unfold backtrack at h
            rw [h, take_succ_reverse bLines j _ hb]
            simp
          · have hge2 : ¬ lcsLen (aLines.take i).reverse (bLines[j] :: (bLines.take j).reverse)
                ≥ lcsLen (aLines[i] :: (aLines.take i).reverse) (bLines.take j).reverse := by
              simpa [cellValue, take_succ_reverse aLines i _ ha, take_succ_reverse bLines j _ hb]
                using hge
            simp only [hge, hge2, if_false, Option.some_bind]
            have h := ih (i + 1) j (ops ++ [⟨OpType.added, bLines[j]⟩]) (by omega) (by omega)
              (by omega)
            unfold backtrack at h
            rw [h, take_succ_reverse aLines i _ ha]
            simp

/-- The refinement: `computeDiff` returns the pushed operations, reversed. -/
theorem computeDiff_eq (aLines bLines : List α) :
    computeDiff aLines bLines = some (pushed aLines.reverse bLines.reverse).reverse := by
  have h := backtrack_eq aLines bLines (aLines.length + bLines.length) (by omega) (by omega)
    (aLines.length + bLines.length) aLines.length bLines.length [] (Nat.le_refl _) (Nat.le_refl _)
    (Nat.le_refl _)
  unfold backtrack at h
  unfold computeDiff
  simp only [Option.bind_eq_bind, fillTable_eq, Option.some_bind]
  cases h1 : whileLoop (fun s => decide (s.i > 0) && decide (s.j > 0))
      (walkStep aLines bLines (tableOf (cellValue aLines bLines) aLines.length bLines.length))
      (aLines.length + bLines.length) ⟨aLines.length, bLines.length, []⟩ with
  | none => rw [h1] at h; simp at h
  | some s1 =>
    rw [h1, Option.some_bind] at h
    rw [Option.some_bind]
    cases h2 : whileLoop (fun s => decide (s.i > 0)) (flushRemoved aLines)
        (aLines.length + bLines.length) s1 with
    | none => rw [h2] at h; simp at h
    | some s2 =>
      rw [h2, Option.some_bind] at h
      rw [Option.some_bind, h]
      simp

end Backtrack

/-! ## Properties of the pushed operations -/

section Script

variable {α : Type} [DecidableEq α]

omit [DecidableEq α] in
theorem countType_eq_length_filter (ops : List (Op α)) (t : OpType) :
    countType ops t = (ops.filter (fun o => decide (o.type = t))).length := by
  have h : ∀ (l : List (Op α)) (k : Nat),
      l.foldl (fun count op => if op.type = t then count + 1 else count) k
        = k + (l.filter (fun o => decide (o.type = t))).length := by
    intro l
    induction l with
    | nil => intro k; simp
    | cons o l ih =>
      intro k
      by_cases ho : o.type = t
      · simp [List.foldl_cons, ih, ho]; omega
      · simp [List.foldl_cons, ih, ho]
  simp [countType, h]

omit [DecidableEq α] in
theorem oldSide_reverse (ops : List (Op α)) : oldSide ops.reverse = (oldSide ops).reverse := by
  simp [oldSide, List.filter_reverse]

omit [DecidableEq α] in
theorem newSide_reverse (ops : List (Op α)) : newSide ops.reverse = (newSide ops).reverse := by
  simp [newSide, List.filter_reverse]

omit [DecidableEq α] in
theorem sameValues_reverse (ops : List (Op α)) :
    sameValues ops.reverse = (sameValues ops).reverse := by
  simp [sameValues, List.filter_reverse]

omit [DecidableEq α] in
theorem sameValues_sublist_oldSide (ops : List (Op α)) : (sameValues ops).Sublist (oldSide ops) := by
  unfold sameValues oldSide
  apply List.Sublist.map
  apply List.monotone_filter_right
  intro o ho
  simp only [decide_eq_true_eq] at ho
  simp [ho]

omit [DecidableEq α] in
theorem sameValues_sublist_newSide (ops : List (Op α)) : (sameValues ops).Sublist (newSide ops) := by
  unfold sameValues newSide
  apply List.Sublist.map
  apply List.monotone_filter_right
  intro o ho
  simp only [decide_eq_true_eq] at ho
  simp [ho]

theorem pushed_oldSide (xs ys : List α) : oldSide (pushed xs ys) = xs := by
  induction xs, ys using pushed.induct with
  | case1 => simp [pushed, oldSide]
  | case2 a as ih => rw [pushed]; simpa [oldSide] using ih
  | case3 b bs ih => rw [pushed]; simpa [oldSide] using ih
  | case4 as b bs ih => rw [pushed]; simpa [oldSide] using ih
  | case5 a as b bs hab hge ih => rw [pushed]; simpa [oldSide, hab, hge] using ih
  | case6 a as b bs hab hge ih => rw [pushed]; simpa [oldSide, hab, hge] using ih

theorem pushed_newSide (xs ys : List α) : newSide (pushed xs ys) = ys := by
  induction xs, ys using pushed.induct with
  | case1 => simp [pushed, newSide]
  | case2 a as ih => rw [pushed]; simpa [newSide] using ih
  | case3 b bs ih => rw [pushed]; simpa [newSide] using ih
  | case4 as b bs ih => rw [pushed]; simpa [newSide] using ih
  | case5 a as b bs hab hge ih => rw [pushed]; simpa [newSide, hab, hge] using ih
  | case6 a as b bs hab hge ih => rw [pushed]; simpa [newSide, hab, hge] using ih

theorem pushed_sameValues_length (xs ys : List α) :
    (sameValues (pushed xs ys)).length = lcsLen xs ys := by
  induction xs, ys using pushed.induct with
  | case1 => simp [pushed, sameValues, lcsLen]
  | case2 a as ih => rw [pushed, lcsLen]; simpa [sameValues, lcsLen_nil_right] using ih
  | case3 b bs ih => rw [pushed, lcsLen]; simpa [sameValues, lcsLen] using ih
  | case4 as b bs ih => rw [pushed, lcsLen]; simpa [sameValues] using ih
  | case5 a as b bs hab hge ih =>
    rw [pushed, lcsLen]
    simp only [hab, hge, if_true, if_false]
    rw [Nat.max_eq_left hge]
    simpa [sameValues] using ih
  | case6 a as b bs hab hge ih =>
    rw [pushed, lcsLen]
    simp only [hab, hge, if_true, if_false]
    rw [Nat.max_eq_right (by omega)]
    simpa [sameValues] using ih

omit [DecidableEq α] in
theorem sublist_tail_of_cons_sublist_cons {x b : α} {s as : List α}
    (h : (x :: s).Sublist (b :: as)) : s.Sublist as := by
  cases h with
  | cons _ h1 => exact (List.sublist_cons_self x s).trans h1
  | cons₂ _ h1 => exact h1

/-- No common subsequence is longer than `lcsLen`. -/
theorem length_le_lcsLen (xs ys : List α) :
    ∀ s : List α, s.Sublist xs → s.Sublist ys → s.length ≤ lcsLen xs ys := by
  induction xs, ys using lcsLen.induct with
  | case1 ys =>
    intro s h1 _
    simp [List.sublist_nil.mp h1]
  | case2 a as =>
    intro s _ h2
    simp [List.sublist_nil.mp h2]
  | case3 as b bs ih =>
    intro s h1 h2
    rw [lcsLen]
    simp only [if_true]
    cases s with
    | nil => simp
    | cons x s =>
      have h := ih s (sublist_tail_of_cons_sublist_cons h1) (sublist_tail_of_cons_sublist_cons h2)
      simp only [List.length_cons]
      omega
  | case4 a as b bs hab ih1 ih2 =>
    intro s h1 h2
    rw [lcsLen]
    simp only [hab, if_false]
    cases h1 with
    | cons _ h1 =>
      exact Nat.le_trans (ih1 s h1 h2) (Nat.le_max_left _ _)
    | cons₂ _ h1 =>
      rename_i s1
      cases h2 with
      | cons _ h2 =>
        exact Nat.le_trans (ih2 (a :: s1) (List.Sublist.cons₂ a h1) h2) (Nat.le_max_right _ _)
      | cons₂ _ h2 => exact absurd rfl hab

end Script

section ScriptLemmas

variable {α : Type} [DecidableEq α]

theorem pushed_self (xs : List α) :
    pushed xs xs = xs.map (fun a => (⟨OpType.same, a⟩ : Op α)) := by
  induction xs with
  | nil => simp [pushed]
  | cons a as ih => rw [pushed]; simp [ih]

omit [DecidableEq α] in
theorem oldSide_length (ops : List (Op α)) :
    (oldSide ops).length = countType ops OpType.same + countType ops OpType.removed := by
  rw [countType_eq_length_filter, countType_eq_length_filter]
  unfold oldSide
  rw [List.length_map]
  induction ops with
  | nil => simp
  | cons o ops ih =>
    rcases o with ⟨t, v⟩
    simp only [Bool.decide_or] at ih ⊢
    cases t <;> simp [List.filter_cons] <;> omega

omit [DecidableEq α] in
theorem newSide_length (ops : List (Op α)) :
    (newSide ops).length = countType ops OpType.same + countType ops OpType.added := by
  rw [countType_eq_length_filter, countType_eq_length_filter]
  unfold newSide
  rw [List.length_map]
  induction ops with
  | nil => simp
  | cons o ops ih =>
    rcases o with ⟨t, v⟩
    simp only [Bool.decide_or] at ih ⊢
    cases t <;> simp [List.filter_cons] <;> omega

omit [DecidableEq α] in
theorem countType_same_eq (ops : List (Op α)) :
    countType ops OpType.same = (sameValues ops).length := by
  rw [countType_eq_length_filter]
  simp [sameValues]

end ScriptLemmas

/-! ## The contract of `computeDiff` -/

section Contract

variable {α : Type} [DecidableEq α]

/-- C1: for all sequences `A` and `B`, `computeDiff A B` returns a script whose
`'same'` and `'removed'` values, in order, are exactly `A`, and whose `'same'` and
`'added'` values, in order, are exactly `B`. -/
theorem computeDiff_reconstructs (A B : List α) :
    ∃ ops, computeDiff A B = some ops ∧ oldSide ops = A ∧ newSide ops = B := by
  refine ⟨_, computeDiff_eq A B, ?_, ?_⟩
  · rw [oldSide_reverse, pushed_oldSide, List.reverse_reverse]
  · rw [newSide_reverse, pushed_newSide, List.reverse_reverse]

/-- C2: for all sequences `A` and `B`, the values of the `'same'` operations of
`computeDiff A B`, in order, are a common subsequence of `A` and `B`, and no common
subsequence of `A` and `B` is longer than the number of `'same'` operations. -/
theorem computeDiff_same_is_longest (A B : List α) :
    ∃ ops, computeDiff A B = some ops ∧
      (sameValues ops).Sublist A ∧ (sameValues ops).Sublist B ∧
      countType ops OpType.same = (sameValues ops).length ∧
      ∀ s : List α, s.Sublist A → s.Sublist B → s.length ≤ countType ops OpType.same := by
  have hold : oldSide (pushed A.reverse B.reverse).reverse = A := by
    rw [oldSide_reverse, pushed_oldSide, List.reverse_reverse]
  have hnew : newSide (pushed A.reverse B.reverse).reverse = B := by
    rw [newSide_reverse, pushed_newSide, List.reverse_reverse]
  refine ⟨_, computeDiff_eq A B, ?_, ?_, countType_same_eq _, ?_⟩
  · have h := sameValues_sublist_oldSide (pushed A.reverse B.reverse).reverse
    rwa [hold] at h
  · have h := sameValues_sublist_newSide (pushed A.reverse B.reverse).reverse
    rwa [hnew] at h
  · intro s h1 h2
    rw [countType_same_eq, sameValues_reverse, List.length_reverse, pushed_sameValues_length]
    have h := length_le_lcsLen A.reverse B.reverse s.reverse (List.reverse_sublist.mpr h1)
      (List.reverse_sublist.mpr h2)
    simpa using h

/-- C3 as stated fails: for `A = ["hello world", "foo"]` and `B = ["hello there", "foo"]`
the script is not `[Removed("hello world"), Added("hello there"), Same("foo")]`. -/
theorem computeDiff_hello_not_removed_first :
    computeDiff [utf16 "hello world", utf16 "foo"] [utf16 "hello there", utf16 "foo"]
      ≠ some [⟨OpType.removed, utf16 "hello world"⟩, ⟨OpType.added, utf16 "hello there"⟩,
          ⟨OpType.same, utf16 "foo"⟩] := by
  decide

/-- C3, amended: for `A = ["hello world", "foo"]` and `B = ["hello there", "foo"]`,
`computeDiff A B` is exactly `[Added("hello there"), Removed("hello world"), Same("foo")]`,
in that order. -/
theorem computeDiff_hello :
    computeDiff [utf16 "hello world", utf16 "foo"] [utf16 "hello there", utf16 "foo"]
      = some [⟨OpType.added, utf16 "hello there"⟩, ⟨OpType.removed, utf16 "hello world"⟩,
          ⟨OpType.same, utf16 "foo"⟩] := by
  decide

/-- C4: for `A = ["a", "b"]` and `B = ["b", "a"]`, `computeDiff A B` is exactly
`[Added("b"), Same("a"), Removed("b")]`, in that order. -/
theorem computeDiff_tie_break :
    computeDiff [utf16 "a", utf16 "b"] [utf16 "b", utf16 "a"]
      = some [⟨OpType.added, utf16 "b"⟩, ⟨OpType.same, utf16 "a"⟩,
          ⟨OpType.removed, utf16 "b"⟩] := by
  decide

/-- C5: for every sequence `A`, `computeDiff A A` has length `|A|`, every operation
in it is `'same'`, and its values are `A` in order. -/
theorem computeDiff_self (A : List α) :
    ∃ ops, computeDiff A A = some ops ∧ ops.length = A.length ∧
      (∀ o ∈ ops, o.type = OpType.same) ∧ ops.map Op.value = A := by
  refine ⟨_, computeDiff_eq A A, ?_, ?_, ?_⟩
  · simp [pushed_self]
  · intro o ho
    rw [pushed_self] at ho
    simp only [List.mem_reverse, List.mem_map] at ho
    obtain ⟨a, _, rfl⟩ := ho
    rfl
  · rw [pushed_self, ← List.map_reverse, List.reverse_reverse, List.map_map]
    simp [Function.comp_def]

/-- C6: for all sequences `A` and `B` with no element in common, `computeDiff A B`
contains no `'same'` operation, exactly `|A|` `'removed'` operations and exactly `|B|`
`'added'` operations. -/
theorem computeDiff_disjoint (A B : List α) (h : ∀ x, x ∈ A → x ∉ B) :
    ∃ ops, computeDiff A B = some ops ∧ countType ops OpType.same = 0 ∧
      countType ops OpType.removed = A.length ∧ countType ops OpType.added = B.length := by
  have hold : oldSide (pushed A.reverse B.reverse).reverse = A := by
    rw [oldSide_reverse, pushed_oldSide, List.reverse_reverse]
  have hnew : newSide (pushed A.reverse B.reverse).reverse = B := by
    rw [newSide_reverse, pushed_newSide, List.reverse_reverse]
  have h1 := sameValues_sublist_oldSide (pushed A.reverse B.reverse).reverse
  have h2 := sameValues_sublist_newSide (pushed A.reverse B.reverse).reverse
  rw [hold] at h1
  rw [hnew] at h2
  have hsame : countType (pushed A.reverse B.reverse).reverse OpType.same = 0 := by
    rw [countType_same_eq]
    cases hs : sameValues (pushed A.reverse B.reverse).reverse with
    | nil => rfl
    | cons x s =>
      rw [hs] at h1 h2
      exact absurd (h2.subset (List.mem_cons_self x s)) (h x (h1.subset (List.mem_cons_self x s)))
  have hlenA := oldSide_length (pushed A.reverse B.reverse).reverse
  have hlenB := newSide_length (pushed A.reverse B.reverse).reverse
  rw [hold, hsame] at hlenA
  rw [hnew, hsame] at hlenB
  exact ⟨_, computeDiff_eq A B, hsame, by omega, by omega⟩

/-- Witness of C6 at `A = ["a", "c"]`, `B = ["b"]`. -/
theorem computeDiff_disjoint_witness :
    (∀ x, x ∈ [utf16 "a", utf16 "c"] → x ∉ [utf16 "b"]) ∧
    ∃ ops, computeDiff [utf16 "a", utf16 "c"] [utf16 "b"] = some ops ∧
      countType ops OpType.same = 0 ∧
      countType ops OpType.removed = [utf16 "a", utf16 "c"].length ∧
      countType ops OpType.added = [utf16 "b"].length :=
  ⟨by decide, computeDiff_disjoint [utf16 "a", utf16 "c"] [utf16 "b"] (by decide)⟩

/-- C7: `computeDiff [] []` is the empty script; for every `B`, `computeDiff [] B` is one
`'added'` operation per element of `B`, in order; for every `A`, `computeDiff A []` is one
`'removed'` operation per element of `A`, in order; `computeDiff ["x"] []` is
`[Removed("x")]`. -/
theorem computeDiff_empty :
    computeDiff ([] : List α) [] = some [] ∧
    (∀ B : List α, computeDiff [] B = some (B.map (fun b => ⟨OpType.added, b⟩))) ∧
    (∀ A : List α, computeDiff A [] = some (A.map (fun a => ⟨OpType.removed, a⟩))) ∧
    computeDiff [utf16 "x"] [] = some [⟨OpType.removed, utf16 "x"⟩] := by
  refine ⟨?_, ?_, ?_, ?_⟩
  · rw [computeDiff_eq]
    simp [pushed]
  · intro B
    rw [computeDiff_eq, List.reverse_nil, pushed_nil_left, ← List.map_reverse,
      List.reverse_reverse]
  · intro A
    rw [computeDiff_eq, List.reverse_nil, pushed_nil_right, ← List.map_reverse,
      List.reverse_reverse]
  · decide

end Contract

/-! ## `tokenizeWords` -/

section Tokenize

theorem whiteSpaceRun_word (c : Nat) (rest : JSString) (h : isWhiteSpace c = false) :
    whiteSpaceRun (c :: rest) = none := by
  simp [whiteSpaceRun, List.takeWhile_cons, h]

theorem whiteSpaceRun_space (c : Nat) (rest : JSString) (h : isWhiteSpace c = true) :
    whiteSpaceRun (c :: rest)
      = some ((rest.takeWhile isWhiteSpace).length + 1, [c :: rest.takeWhile isWhiteSpace]) := by
  simp [whiteSpaceRun, List.takeWhile_cons, h]

theorem drop_length_takeWhile {β : Type} (p : β → Bool) (l : List β) :
    l.drop (l.takeWhile p).length = l.dropWhile p := by
  induction l with
  | nil => simp
  | cons a l ih =>
    by_cases h : p a = true
    · simp [List.takeWhile_cons, List.dropWhile_cons, h, ih]
    · simp [List.takeWhile_cons, List.dropWhile_cons, h]

theorem length_dropWhile_le {β : Type} (p : β → Bool) (l : List β) :
    (l.dropWhile p).length ≤ l.length := by
  have h := congrArg List.length (List.takeWhile_append_dropWhile p l)
  rw [List.length_append] at h
  omega

/-- With fuel for every code unit, the loop of `split` returns the tokens. -/
theorem splitLoop_tokens (fuel : Nat) :
    ∀ (seg rest : JSString), rest.length ≤ fuel →
      ∃ toks, splitLoop whiteSpaceRun fuel seg rest = some toks ∧ Tokens seg rest toks := by
  induction fuel with
  | zero =>
    intro seg rest h
    have hr : rest = [] := List.length_eq_zero.mp (by omega)
    subst hr
    exact ⟨[seg], by simp [splitLoop], Tokens.done seg⟩
  | succ fuel ih =>
    intro seg rest h
    cases rest with
    | nil => exact ⟨[seg], by simp [splitLoop], Tokens.done seg⟩
    | cons c rest =>
      simp only [List.length_cons] at h
      cases hc : isWhiteSpace c with
      | false =>
        obtain ⟨toks, h1, h2⟩ := ih (seg ++ [c]) rest (by omega)
        refine ⟨toks, ?_, Tokens.word seg c rest toks hc h2⟩
        simp only [splitLoop, whiteSpaceRun_word c rest hc]
        exact h1
      | true =>
        obtain ⟨toks, h1, h2⟩ := ih [] (rest.dropWhile isWhiteSpace)
          (Nat.le_trans (length_dropWhile_le _ _) (by omega))
        refine ⟨seg :: (c :: rest.takeWhile isWhiteSpace) :: toks, ?_,
          Tokens.space seg c rest toks hc h2⟩
        simp only [splitLoop, whiteSpaceRun_space c rest hc, List.drop_succ_cons,
          drop_length_takeWhile, h1]
        simp

theorem tokenizeWords_tokens (line : JSString) (h : line ≠ []) :
    ∃ toks, tokenizeWords line = some toks ∧ Tokens [] line toks := by
  obtain ⟨toks, h1, h2⟩ := splitLoop_tokens (2 * line.length) [] line (by omega)
  exact ⟨toks, by simp [tokenizeWords, split, h, h1], h2⟩

theorem Tokens.flatten_eq {seg rest : JSString} {toks : List JSString}
    (h : Tokens seg rest toks) : toks.flatten = seg ++ rest := by
  induction h with
  | done seg => simp
  | word seg c rest toks _ _ ih => simpa using ih
  | space seg c rest toks _ _ ih =>
    simp only [List.flatten_cons, ih, List.nil_append, List.cons_append]
    rw [List.takeWhile_append_dropWhile]

theorem tokenClass_add_two (k c : Nat) : tokenClass (k + 2) c = tokenClass k c := by
  unfold tokenClass
  have h : (k + 2) % 2 = k % 2 := by omega
  rw [h]

theorem head_dropWhile_whiteSpace (rest : JSString) :
    rest.dropWhile isWhiteSpace = [] ∨
      (rest.dropWhile isWhiteSpace).takeWhile (fun c => !isWhiteSpace c) ≠ [] := by
  have h := List.head?_dropWhile_not isWhiteSpace rest
  cases hd : rest.dropWhile isWhiteSpace with
  | nil => exact Or.inl rfl
  | cons d r =>
    rw [hd] at h
    simp only [List.head?_cons] at h
    right
    simp [List.takeWhile_cons, h]

/-- The shape of the tokens: an odd number of them, the first one the segment read so far
and the non-white-space that follows, every token of the class of its position, white-space
tokens not empty, and no empty token strictly inside. -/
theorem Tokens.shape {seg rest : JSString} {toks : List JSString} (h : Tokens seg rest toks) :
    (∀ c ∈ seg, isWhiteSpace c = false) →
    toks.length % 2 = 1 ∧
    toks.head? = some (seg ++ rest.takeWhile (fun c => !isWhiteSpace c)) ∧
    (rest = [] → toks = [seg]) ∧
    (∀ (k : Nat) (hk : k < toks.length),
      (∀ c ∈ toks[k], tokenClass k c = true) ∧ (k % 2 = 1 → toks[k] ≠ [])) ∧
    (∀ (k : Nat) (hk : k < toks.length), 0 < k → k + 1 < toks.length → toks[k] ≠ []) := by
  induction h with
  | done seg =>
    intro hseg
    refine ⟨rfl, by simp, fun _ => rfl, ?_, ?_⟩
    · intro k hk
      have hk0 : k = 0 := by simpa using hk
      subst hk0
      refine ⟨?_, by omega⟩
      intro c hc
      simp only [List.getElem_cons_zero] at hc
      simp [tokenClass, hseg c hc]
    · intro k hk h0 h1
      simp at h1
  | word seg c rest toks hc _ ih =>
    intro hseg
    have hseg2 : ∀ d ∈ seg ++ [c], isWhiteSpace d = false := by
      intro d hd
      rcases List.mem_append.mp hd with h1 | h1
      · exact hseg d h1
      · rw [List.mem_singleton.mp h1]; exact hc
    obtain ⟨h1, h2, _, h4, h5⟩ := ih hseg2
    refine ⟨h1, ?_, by simp, h4, h5⟩
    rw [h2]
    simp [List.takeWhile_cons, hc]
  | space seg c rest toks hc hsub ih =>
    intro hseg
    obtain ⟨h1, h2, h3, h4, h5⟩ := ih (by simp)
    refine ⟨?_, ?_, by simp, ?_, ?_⟩
    · simp only [List.length_cons]; omega
    · simp [List.takeWhile_cons, hc]
    · intro k hk
      match k, hk with
      | 0, _ =>
        refine ⟨?_, by omega⟩
        intro d hd
        simp only [List.getElem_cons_zero] at hd
        simp [tokenClass, hseg d hd]
      | 1, _ =>
        refine ⟨?_, by simp⟩
        intro d hd
        simp only [List.getElem_cons_succ, List.getElem_cons_zero, List.mem_cons] at hd
        rcases hd with hd | hd
        · simp [tokenClass, hd, hc]
        · simp [tokenClass, List.mem_takeWhile_imp hd]
      | k + 2, hk =>
        simp only [List.length_cons] at hk
        have hk2 : k < toks.length := by omega
        simp only [List.getElem_cons_succ]
        refine ⟨?_, ?_⟩
        · intro d hd
          rw [tokenClass_add_two]
          exact (h4 k hk2).1 d hd
        · intro hodd
          exact (h4 k hk2).2 (by omega)
    · intro k hk h0 hlast
      match k, hk with
      | 0, _ => omega
      | 1, _ => simp
      | k + 2, hk =>
        simp only [List.length_cons] at hk hlast
        have hk2 : k < toks.length := by omega
        simp only [List.getElem_cons_succ]
        cases k with
        | zero =>
          rcases head_dropWhile_whiteSpace rest with hnil | hne
          · have := h3 hnil
            rw [this] at hlast
            simp at hlast
          · cases toks with
            | nil => simp at hk2
            | cons t ts =>
              simp only [List.head?_cons, List.nil_append, Option.some.injEq] at h2
              simp only [List.getElem_cons_zero]
              rw [h2]
              exact hne
        | succ k => exact h5 (k + 1) hk2 (by omega) (by omega)

theorem tokenClass_succ (k c : Nat) : tokenClass (k + 1) c = !tokenClass k c := by
  unfold tokenClass
  rcases Nat.mod_two_eq_zero_or_one k with h | h
  · have h1 : (k + 1) % 2 = 1 := by omega
    simp [h, h1]
  · have h1 : (k + 1) % 2 = 0 := by omega
    simp [h, h1]

theorem flatten_split_at {β : Type} (toks : List (List β)) (k : Nat) (hk : k < toks.length) :
    (toks.take k).flatten ++ toks[k] ++ (toks.drop (k + 1)).flatten = toks.flatten := by
  have h := congrArg List.flatten (List.take_append_drop k toks)
  rw [List.drop_eq_getElem_cons hk, List.flatten_append, List.flatten_cons] at h
  rw [← h, List.append_assoc]

/-- A token list of the shape of `Tokens.shape` consists of maximal runs. -/
theorem maximalRun_of_shape (toks : List JSString)
    (h4 : ∀ (k : Nat) (hk : k < toks.length),
      (∀ c ∈ toks[k], tokenClass k c = true) ∧ (k % 2 = 1 → toks[k] ≠ []))
    (h5 : ∀ (k : Nat) (hk : k < toks.length), 0 < k → k + 1 < toks.length → toks[k] ≠ [])
    (k : Nat) (hk : k < toks.length) :
    IsMaximalRun (tokenClass k) (toks.take k).flatten toks[k] (toks.drop (k + 1)).flatten := by
  refine ⟨(h4 k hk).1, ?_, ?_⟩
  · intro c hc
    cases k with
    | zero => simp at hc
    | succ j =>
      have hj : j < toks.length := by omega
      rw [List.take_succ, List.getElem?_eq_getElem hj] at hc
      simp only [Option.toList_some, List.flatten_append, List.flatten_cons, List.flatten_nil,
        List.append_nil] at hc
      by_cases hempty : toks[j] = []
      · have hj0 : j = 0 := by
          by_contra hne
          exact h5 j hj (by omega) hk hempty
        subst hj0
        simp [hempty] at hc
      · rw [List.getLast?_append_of_ne_nil _ hempty] at hc
        have hmem : c ∈ toks[j] := List.mem_of_mem_getLast? hc
        rw [tokenClass_succ, (h4 j hj).1 c hmem]
        rfl
  · intro c hc
    by_cases hk1 : k + 1 < toks.length
    · rw [List.drop_eq_getElem_cons hk1, List.flatten_cons] at hc
      by_cases hempty : toks[k + 1] = []
      · have hlast : ¬ (k + 1 + 1 < toks.length) := fun hlt => h5 (k + 1) hk1 (by omega) hlt hempty
        rw [hempty, List.drop_eq_nil_of_le (by omega)] at hc
        simp at hc
      · rw [List.head?_append_of_ne_nil _ hempty] at hc
        have hmem : c ∈ toks[k + 1] := List.mem_of_mem_head? hc
        have h := (h4 (k + 1) hk1).1 c hmem
        rw [tokenClass_succ] at h
        simpa using h
    · rw [List.drop_eq_nil_of_le (by omega)] at hc
      simp at hc

end Tokenize

/-! ## The contract of `tokenizeWords` -/

section TokenizeContract

/-- C8: for every string `line`, `tokenizeWords line` returns tokens whose concatenation,
in order, is exactly `line`. -/
theorem tokenizeWords_roundtrip (line : JSString) :
    ∃ toks, tokenizeWords line = some toks ∧ toks.flatten = line := by
  by_cases h : line = []
  · subst h
    exact ⟨[], by simp [tokenizeWords], rfl⟩
  · obtain ⟨toks, h1, h2⟩ := tokenizeWords_tokens line h
    exact ⟨toks, h1, by simpa using h2.flatten_eq⟩

/-- C9 as stated fails: the line `" a"` has the three tokens `""`, `" "`, `"a"`, the first
of which is empty. -/
theorem tokenizeWords_leading_space_empty_token :
    tokenizeWords (utf16 " a") = some [[], utf16 " ", utf16 "a"] ∧
    ¬ (∀ toks, tokenizeWords (utf16 " a") = some toks → ∀ t ∈ toks, t ≠ []) := by
  refine ⟨by decide, ?_⟩
  intro h
  exact h [[], utf16 " ", utf16 "a"] (by decide) [] (by simp) rfl

/-- C9, amended: for every string `line`, `tokenizeWords line` returns tokens in which
non-white-space runs (at even positions, from 0) and white-space runs (at odd positions)
alternate: every token is a maximal run of its class in the line, every white-space token is
non-empty, and a token can be empty only at the first or the last position; a non-empty line
gives an odd number of tokens and the empty line gives zero tokens. -/
theorem tokenizeWords_alternates (line : JSString) :
    ∃ toks, tokenizeWords line = some toks ∧
      (line = [] → toks = []) ∧
      (line ≠ [] → toks.length % 2 = 1) ∧
      ∀ (k : Nat) (hk : k < toks.length),
        (toks.take k).flatten ++ toks[k] ++ (toks.drop (k + 1)).flatten = line ∧
        IsMaximalRun (tokenClass k) (toks.take k).flatten toks[k] (toks.drop (k + 1)).flatten ∧
        (k % 2 = 1 → toks[k] ≠ []) ∧
        (toks[k] = [] → k = 0 ∨ k + 1 = toks.length) := by
  by_cases h : line = []
  · subst h
    refine ⟨[], by simp [tokenizeWords], fun _ => rfl, fun hne => absurd rfl hne, ?_⟩
    intro k hk
    simp at hk
  · obtain ⟨toks, h1, h2⟩ := tokenizeWords_tokens line h
    obtain ⟨s1, _, _, s4, s5⟩ := h2.shape (by simp)
    refine ⟨toks, h1, fun h0 => absurd h0 h, fun _ => s1, ?_⟩
    intro k hk
    refine ⟨?_, maximalRun_of_shape toks s4 s5 k hk, (s4 k hk).2, ?_⟩
    · rw [flatten_split_at toks k hk]
      simpa using h2.flatten_eq
    · intro hempty
      by_contra hne
      exact s5 k hk (by omega) (by omega) hempty

end TokenizeContract

/-! ## `toLines` -/

section Lines

theorem lineBreak_other (c : Nat) (rest : JSString) (h1 : c ≠ 10) (h2 : c ≠ 13) :
    lineBreak (c :: rest) = none := by
  cases rest <;> simp [lineBreak, h1, h2]

theorem lineBreak_lf (rest : JSString) : lineBreak (10 :: rest) = some (1, []) := by
  cases rest <;> simp [lineBreak]

theorem lineBreak_crlf (rest : JSString) : lineBreak (13 :: 10 :: rest) = some (2, []) := by
  simp [lineBreak]

theorem splitLoop_none (m : Matcher) (fuel : Nat) (seg : JSString) (c : Nat) (rest : JSString)
    (h : m (c :: rest) = none) :
    splitLoop m (fuel + 1) seg (c :: rest) = splitLoop m fuel (seg ++ [c]) rest := by
  rw [splitLoop, h]

theorem splitLoop_some (m : Matcher) (fuel : Nat) (seg : JSString) (c : Nat) (rest : JSString)
    (len : Nat) (caps : List JSString) (h : m (c :: rest) = some (len, caps)) (hlen : len ≠ 0) :
    splitLoop m (fuel + 1) seg (c :: rest)
      = (splitLoop m fuel [] ((c :: rest).drop len)).map (fun toks => seg :: (caps ++ toks)) := by
  rw [splitLoop, h]
  simp [hlen]

/-- Over a text without line breaks the loop of `split` only extends the segment. -/
theorem splitLoop_lineBreak_scan (l : JSString) :
    ∀ (fuel : Nat) (seg t : JSString), NoBreak l → l.length + t.length ≤ fuel →
      splitLoop lineBreak fuel seg (l ++ t) = splitLoop lineBreak (fuel - l.length) (seg ++ l) t := by
  induction l with
  | nil => intro fuel seg t _ _; simp
  | cons c l ih =>
    intro fuel seg t hl hfuel
    simp only [List.length_cons] at hfuel
    obtain ⟨f, rfl⟩ : ∃ f, fuel = f + 1 := ⟨fuel - 1, by omega⟩
    have hc := hl c (List.mem_cons_self c l)
    have hl2 : NoBreak l := fun d hd => hl d (List.mem_cons_of_mem c hd)
    rw [List.cons_append, splitLoop_none _ _ _ _ _ (lineBreak_other c (l ++ t) hc.1 hc.2),
      ih f (seg ++ [c]) t hl2 (by omega)]
    simp

theorem joinLines_cons (first : JSString) (b : Bool) (l : JSString)
    (more : List (Bool × JSString)) :
    joinLines first ((b, l) :: more) = first ++ (separator b ++ joinLines l more) := by
  simp [joinLines]

theorem splitLoop_joinLines (more : List (Bool × JSString)) :
    ∀ (fuel : Nat) (seg first : JSString), NoBreak first → (∀ p ∈ more, NoBreak p.2) →
      (joinLines first more).length ≤ fuel →
      splitLoop lineBreak fuel seg (joinLines first more)
        = some ((seg ++ first) :: more.map Prod.snd) := by
  induction more with
  | nil =>
    intro fuel seg first hfirst _ hfuel
    have h := splitLoop_lineBreak_scan first fuel seg [] hfirst (by simpa [joinLines] using hfuel)
    simp only [List.append_nil] at h
    simp [joinLines, h, splitLoop]
  | cons p more ih =>
    intro fuel seg first hfirst hmore hfuel
    obtain ⟨b, l⟩ := p
    have hl : NoBreak l := hmore (b, l) (List.mem_cons_self _ _)
    have hmore2 : ∀ q ∈ more, NoBreak q.2 := fun q hq => hmore q (List.mem_cons_of_mem _ hq)
    rw [joinLines_cons] at hfuel ⊢
    simp only [List.length_append] at hfuel
    rw [splitLoop_lineBreak_scan first fuel seg _ hfirst (by simp only [List.length_append]; omega)]
    cases b with
    | false =>
      simp only [separator, Bool.false_eq_true, if_false, List.length_cons, List.length_nil,
        List.cons_append, List.nil_append] at hfuel ⊢
      obtain ⟨f, hf⟩ : ∃ f, fuel - first.length = f + 1 := ⟨fuel - first.length - 1, by omega⟩
      rw [hf, splitLoop_some _ _ _ _ _ _ _ (lineBreak_lf _) (by decide),
        show List.drop 1 (10 :: joinLines l more) = joinLines l more from rfl,
        ih f [] l hl hmore2 (by omega)]
      simp
    | true =>
      simp only [separator, if_true, List.length_cons, List.length_nil,
        List.cons_append, List.nil_append] at hfuel ⊢
      obtain ⟨f, hf⟩ : ∃ f, fuel - first.length = f + 1 := ⟨fuel - first.length - 1, by omega⟩
      rw [hf, splitLoop_some _ _ _ _ _ _ _ (lineBreak_crlf _) (by decide),
        show List.drop 2 (13 :: 10 :: joinLines l more) = joinLines l more from rfl,
        ih f [] l hl hmore2 (by omega)]
      simp

end Lines

/-! ## The contract of `toLines` -/

section LinesContract

/-- C10: `toLines ""` is the empty sequence; and for a non-empty list of strings none of
which holds `"\n"` or `"\r"`, joined with any mix of the separators `"\n"` and `"\r\n"` into
a text that is not the empty string, `toLines` of the text is that list. -/
theorem toLines_spec :
    toLines [] = some [] ∧
    ∀ (first : JSString) (more : List (Bool × JSString)),
      NoBreak first → (∀ p ∈ more, NoBreak p.2) → joinLines first more ≠ [] →
      toLines (joinLines first more) = some (first :: more.map Prod.snd) := by
  refine ⟨by simp [toLines], ?_⟩
  intro first more hfirst hmore hne
  have h := splitLoop_joinLines more (2 * (joinLines first more).length) [] first hfirst hmore
    (by omega)
  simp only [toLines, split, hne, if_false, h, List.nil_append]

/-- Witness of C10 at the text `"a\r\nb\n"`, that is the lines `"a"`, `"b"`, `""`. -/
theorem toLines_spec_witness :
    NoBreak (utf16 "a") ∧ (∀ p ∈ [(true, utf16 "b"), (false, [])], NoBreak p.2) ∧
    joinLines (utf16 "a") [(true, utf16 "b"), (false, [])] = utf16 "a\r\nb\n" ∧
    toLines (utf16 "a\r\nb\n") = some [utf16 "a", utf16 "b", []] :=
  ⟨by unfold NoBreak; decide, by unfold NoBreak; decide, by decide,
    toLines_spec.2 (utf16 "a") [(true, utf16 "b"), (false, [])] (by unfold NoBreak; decide)
      (by unfold NoBreak; decide) (by decide)⟩

end LinesContract

/-! ## The pairing scan computes `scanned` -/

section Scan

variable {α : Type} [DecidableEq α]

theorem idx_natCast_add_one {β : Type} (xs : List β) (k : Nat) :
    idx xs ((k : Int) + 1) = xs[k + 1]? := by
  have h : ((k : Int) + 1) = ((k + 1 : Nat) : Int) := by push_cast; rfl
  rw [h, idx_natCast]

omit [DecidableEq α] in
/-- From any position the loop of `renderDiff` appends the items of the operations left
and adds the number of modified pairs among them. -/
theorem scan_loop (ops : List (Op α)) (fuel : Nat) :
    ∀ (i cp : Nat) (frag : List (Item α)), i ≤ ops.length → ops.length - i ≤ fuel →
      whileLoop (fun s => decide (s.i < ops.length)) (scanStep ops) fuel ⟨i, cp, frag⟩
        = some ⟨ops.length, cp + (scanned (ops.drop i)).countP Item.isModified,
            frag ++ scanned (ops.drop i)⟩ := by
  induction fuel with
  | zero =>
    intro i cp frag hi hf
    have hil : i = ops.length := by omega
    subst hil
    simp [whileLoop, scanned]
  | succ fuel ih =>
    intro i cp frag hi hf
    by_cases hil : i = ops.length
    · subst hil
      simp [whileLoop, scanned]
    · have hlt : i < ops.length := by omega
      have hcur : ops[i]? = some ops[i] := List.getElem?_eq_getElem hlt
      rw [List.drop_eq_getElem_cons hlt]
      simp only [whileLoop, hlt, decide_True, if_true, scanStep, idx_natCast, hcur,
        Option.bind_eq_bind, Option.some_bind, idx_natCast_add_one]
      by_cases hnext : i + 1 < ops.length
      · have hnx : ops[i + 1]? = some ops[i + 1] := List.getElem?_eq_getElem hnext
        rw [List.drop_eq_getElem_cons hnext, scanned]
        simp only [hnx]
        have e2 : i + 1 + 1 = i + 2 := rfl
        rw [e2]
        by_cases h1 : ops[i].type = OpType.removed ∧ ops[i + 1].type = OpType.added
        · simp only [if_pos h1]
          rw [Option.some_bind, ih (i + 2) _ _ (by omega) (by omega)]
          simp [Item.isModified, List.countP_cons]
          omega
        · by_cases h2 : ops[i].type = OpType.added ∧ ops[i + 1].type = OpType.removed
          · simp only [if_neg h1, if_pos h2]
            rw [Option.some_bind, ih (i + 2) _ _ (by omega) (by omega)]
            simp [Item.isModified, List.countP_cons]
            omega
          · simp only [if_neg h1, if_neg h2]
            rw [Option.some_bind, ih (i + 1) _ _ (by omega) (by omega),
              List.drop_eq_getElem_cons hnext]
            simp [Item.isModified, List.countP_cons]
      · have hnx : ops[i + 1]? = none := List.getElem?_eq_none (by omega)
        rw [List.drop_eq_nil_of_le (by omega), scanned]
        simp only [hnx]
        rw [Option.some_bind, ih (i + 1) _ _ (by omega) (by omega),
          List.drop_eq_nil_of_le (by omega)]
        simp [Item.isModified, scanned]

omit [DecidableEq α] in
/-- The refinement: `renderDiff` appends the scanned items and returns the number of
modified pairs among them. -/
theorem renderDiff_eq (ops : List (Op α)) :
    renderDiff ops = some (scanned ops, (scanned ops).countP Item.isModified) := by
  unfold renderDiff
  rw [scan_loop ops ops.length 0 0 [] (by omega) (by omega)]
  simp

omit [DecidableEq α] in
theorem scanned_expand (ops : List (Op α)) : (scanned ops).flatMap Item.expand = ops := by
  induction ops using scanned.induct with
  | case1 => simp [scanned]
  | case2 o => simp [scanned, Item.expand]
  | case3 o1 o2 rest h ih =>
    rw [scanned]
    simp only [if_pos h, List.flatMap_cons, ih]
    rcases o1 with ⟨t1, v1⟩
    rcases o2 with ⟨t2, v2⟩
    simp only at h
    simp [Item.expand, h.1, h.2]
  | case4 o1 o2 rest h1 h2 ih =>
    rw [scanned]
    simp only [if_neg h1, if_pos h2, List.flatMap_cons, ih]
    rcases o1 with ⟨t1, v1⟩
    rcases o2 with ⟨t2, v2⟩
    simp only at h2
    simp [Item.expand, h2.1, h2.2]
  | case5 o1 o2 rest h1 h2 ih =>
    rw [scanned]
    simp only [if_neg h1, if_neg h2, List.flatMap_cons, ih]
    simp [Item.expand]

omit [DecidableEq α] in
theorem length_flatMap_expand (items : List (Item α)) :
    (items.flatMap Item.expand).length
      = 2 * items.countP Item.isModified + items.countP (fun it => !it.isModified) := by
  induction items with
  | nil => simp
  | cons it items ih =>
    rw [List.flatMap_cons, List.length_append, ih]
    rcases it with o | ⟨o, n, f⟩
    · simp [Item.expand, Item.isModified, List.countP_cons]
      omega
    · cases f <;> simp [Item.expand, Item.isModified, List.countP_cons] <;> omega

end Scan

/-! ## The contract of the pairing scan -/

section ScanContract

variable {α : Type}

/-- C11: for all values `a`, `b` and every operation list `rest`, the scan of
`[Removed(a), Added(b)] ++ rest` yields the modified pair `(old = a, new = b)` followed by
the scan of `rest`; in particular `[Removed(a), Added(b), Same(c)]` yields the pair and
then plain `Same(c)`, and `[Removed(a), Added(b), Removed(c)]` yields the pair and then
plain `Removed(c)`. -/
theorem renderDiff_removed_added (a b c : α) (rest : List (Op α)) :
    (∃ items n, renderDiff rest = some (items, n) ∧
      renderDiff ([⟨OpType.removed, a⟩, ⟨OpType.added, b⟩] ++ rest)
        = some (Item.modified a b true :: items, n + 1)) ∧
    renderDiff [⟨OpType.removed, a⟩, ⟨OpType.added, b⟩, ⟨OpType.same, c⟩]
      = some ([Item.modified a b true, Item.plain ⟨OpType.same, c⟩], 1) ∧
    renderDiff [⟨OpType.removed, a⟩, ⟨OpType.added, b⟩, ⟨OpType.removed, c⟩]
      = some ([Item.modified a b true, Item.plain ⟨OpType.removed, c⟩], 1) := by
  refine ⟨⟨_, _, renderDiff_eq rest, ?_⟩, ?_, ?_⟩
  · rw [renderDiff_eq, List.cons_append, List.cons_append, List.nil_append, scanned]
    simp [Item.isModified, List.countP_cons]
  · rw [renderDiff_eq]
    simp [scanned, Item.isModified, List.countP_cons]
  · rw [renderDiff_eq]
    simp [scanned, Item.isModified, List.countP_cons]

/-- C12: for every operation list, every modified pair emitted by the scan has as old line
the value of a `'removed'` operation and as new line the value of an `'added'` operation
next to it in the list, in either order; in particular `[Added(b), Removed(a)]` yields
exactly one modified pair `(old = a, new = b)`. -/
theorem renderDiff_pair_roles (ops : List (Op α)) (a b : α) :
    (∃ items n, renderDiff ops = some (items, n) ∧
      ∀ (oldLine newLine : α) (removedFirst : Bool),
        Item.modified oldLine newLine removedFirst ∈ items →
        ∃ before after,
          ops = before ++ [⟨OpType.removed, oldLine⟩, ⟨OpType.added, newLine⟩] ++ after ∨
          ops = before ++ [⟨OpType.added, newLine⟩, ⟨OpType.removed, oldLine⟩] ++ after) ∧
    renderDiff [⟨OpType.added, b⟩, ⟨OpType.removed, a⟩]
      = some ([Item.modified a b false], 1) := by
  refine ⟨⟨_, _, renderDiff_eq ops, ?_⟩, ?_⟩
  · intro o nw f hmem
    obtain ⟨l1, l2, hsplit⟩ := List.append_of_mem hmem
    have h := scanned_expand ops
    rw [hsplit, List.flatMap_append, List.flatMap_cons] at h
    refine ⟨l1.flatMap Item.expand, l2.flatMap Item.expand, ?_⟩
    cases f with
    | true =>
      left
      rw [← h]
      simp [Item.expand]
    | false =>
      right
      rw [← h]
      simp [Item.expand]
  · rw [renderDiff_eq]
    simp [scanned, Item.isModified, List.countP_cons]

/-- C13: for every operation list `ops`, the scan consumes every operation exactly once:
expanding each emitted pair into its two operations, in their order in the list, and each
plain item into its operation gives exactly `ops`; the returned `changedPairs` is the number
of pairs emitted, and `2 * changedPairs + (number of plain items) = ops.length`. -/
theorem renderDiff_consumes_once (ops : List (Op α)) :
    ∃ items changedPairs, renderDiff ops = some (items, changedPairs) ∧
      items.flatMap Item.expand = ops ∧
      changedPairs = items.countP Item.isModified ∧
      2 * changedPairs + items.countP (fun it => !it.isModified) = ops.length := by
  refine ⟨_, _, renderDiff_eq ops, scanned_expand ops, rfl, ?_⟩
  have h := length_flatMap_expand (scanned ops)
  rw [scanned_expand] at h
  exact h.symm

/-- C14: for `A = ["hello world", "foo"]` and `B = ["hello there", "foo"]`, the scan of
`computeDiff A B` yields exactly one modified pair with old line `"hello world"` and new
line `"hello there"`, then exactly one plain `Same("foo")`, and returns `changedPairs = 1`. -/
theorem renderDiff_hello :
    ∃ ops, computeDiff [utf16 "hello world", utf16 "foo"] [utf16 "hello there", utf16 "foo"]
        = some ops ∧
      renderDiff ops = some ([Item.modified (utf16 "hello world") (utf16 "hello there") false,
        Item.plain ⟨OpType.same, utf16 "foo"⟩], 1) :=
  ⟨[⟨OpType.added, utf16 "hello there"⟩, ⟨OpType.removed, utf16 "hello world"⟩,
    ⟨OpType.same, utf16 "foo"⟩], by decide, by decide⟩

end ScanContract

/-! ## Order of the operations, common suffixes and bounds -/

section Order

variable {α : Type} [DecidableEq α]

theorem pushed_append_common (zs xs ys : List α) :
    pushed (zs ++ xs) (zs ++ ys)
      = zs.map (fun z => (⟨OpType.same, z⟩ : Op α)) ++ pushed xs ys := by
  induction zs with
  | nil => simp
  | cons z zs ih =>
    rw [List.cons_append, List.cons_append, pushed]
    simp [ih]

/-- Adding an element to the second sequence does not shorten the longest common
subsequence. -/
theorem lcsLen_le_cons_right (xs ys : List α) (b : α) : lcsLen xs ys ≤ lcsLen xs (b :: ys) := by
  have h1 := sameValues_sublist_oldSide (pushed xs ys)
  have h2 := sameValues_sublist_newSide (pushed xs ys)
  rw [pushed_oldSide] at h1
  rw [pushed_newSide] at h2
  have h := length_le_lcsLen xs (b :: ys) (sameValues (pushed xs ys)) h1
    (h2.trans (List.sublist_cons_self b ys))
  rwa [pushed_sameValues_length] at h

/-- The operation pushed right after an `'added'` one is never `'removed'`. -/
theorem pushed_head_after_added (a : α) (as : List α) (b : α) (bs : List α)
    (hlt : lcsLen as (b :: bs) < lcsLen (a :: as) bs) :
    ∀ o ∈ (pushed (a :: as) bs).head?, o.type ≠ OpType.removed := by
  intro o ho
  cases bs with
  | nil =>
    rw [lcsLen_nil_right] at hlt
    omega
  | cons b2 bs2 =>
    rw [pushed] at ho
    by_cases hab : a = b2
    · simp only [hab, if_true, List.head?_cons, Option.mem_def, Option.some.injEq] at ho
      rw [← ho]
      simp
    · by_cases hge : lcsLen as (b2 :: bs2) ≥ lcsLen (a :: as) bs2
      · exfalso
        have h1 : lcsLen (a :: as) (b2 :: bs2) = lcsLen as (b2 :: bs2) := by
          rw [lcsLen]
          simp only [hab, if_false]
          exact Nat.max_eq_left hge
        have h2 := lcsLen_le_cons_right as (b2 :: bs2) b
        omega
      · simp only [hab, hge, if_false, List.head?_cons, Option.mem_def, Option.some.injEq] at ho
        rw [← ho]
        simp

/-- In push order an `'added'` operation is never followed at once by a `'removed'` one. -/
theorem pushed_chain (xs ys : List α) :
    List.Chain' (fun o1 o2 : Op α => ¬ (o1.type = OpType.added ∧ o2.type = OpType.removed))
      (pushed xs ys) := by
  induction xs, ys using pushed.induct with
  | case1 => simp [pushed]
  | case2 a as ih =>
    rw [pushed, List.chain'_cons']
    exact ⟨fun y _ h => by simp at h, ih⟩
  | case3 b bs ih =>
    rw [pushed, List.chain'_cons']
    refine ⟨?_, ih⟩
    intro y hy h
    rw [pushed_nil_left] at hy
    cases bs with
    | nil => simp at hy
    | cons b2 bs2 =>
      simp only [List.map_cons, List.head?_cons, Option.mem_def, Option.some.injEq] at hy
      rw [← hy] at h
      simp at h
  | case4 as b bs ih =>
    rw [pushed]
    simp only [if_true]
    rw [List.chain'_cons']
    exact ⟨fun y _ h => by simp at h, ih⟩
  | case5 a as b bs hab hge ih =>
    rw [pushed]
    simp only [hab, hge, if_true, if_false]
    rw [List.chain'_cons']
    exact ⟨fun y _ h => by simp at h, ih⟩
  | case6 a as b bs hab hge ih =>
    rw [pushed]
    simp only [hab, hge, if_false]
    rw [List.chain'_cons']
    refine ⟨?_, ih⟩
    intro y hy h
    exact pushed_head_after_added a as b bs (by omega) y hy h.2

omit [DecidableEq α] in
/-- Without a `'removed'` operation followed at once by an `'added'` one, a `'same'`
operation stands between any `'removed'` operation and any later `'added'` one. -/
theorem same_between_of_chain (mid : List (Op α)) :
    ∀ (r a : Op α) (after : List (Op α)),
      List.Chain' (fun o1 o2 : Op α => ¬ (o1.type = OpType.removed ∧ o2.type = OpType.added))
        (r :: (mid ++ a :: after)) →
      r.type = OpType.removed → a.type = OpType.added → ∃ s ∈ mid, s.type = OpType.same := by
  induction mid with
  | nil =>
    intro r a after hchain hr ha
    rw [List.nil_append, List.chain'_cons] at hchain
    exact absurd ⟨hr, ha⟩ hchain.1
  | cons m mid ih =>
    intro r a after hchain hr ha
    rw [List.cons_append, List.chain'_cons] at hchain
    rcases hm : m.type with _ | _ | _
    · exact ⟨m, List.mem_cons_self m mid, hm⟩
    · exact absurd ⟨hr, hm⟩ hchain.1
    · obtain ⟨s, hs, hsame⟩ := ih m a after hchain.2 hm ha
      exact ⟨s, List.mem_cons_of_mem m hs, hsame⟩

omit [DecidableEq α] in
/-- On such a list the scan never takes the removed-then-added branch. -/
theorem scanned_flags_of_chain (ops : List (Op α)) :
    List.Chain' (fun o1 o2 : Op α => ¬ (o1.type = OpType.removed ∧ o2.type = OpType.added)) ops →
    ∀ (oldLine newLine : α) (removedFirst : Bool),
      Item.modified oldLine newLine removedFirst ∈ scanned ops → removedFirst = false := by
  induction ops using scanned.induct with
  | case1 => intro _ o n f h; simp [scanned] at h
  | case2 o => intro _ o n f h; simp [scanned] at h
  | case3 o1 o2 rest h ih =>
    intro hchain
    rw [List.chain'_cons] at hchain
    exact absurd h hchain.1
  | case4 o1 o2 rest h1 h2 ih =>
    intro hchain o n f hmem
    rw [scanned] at hmem
    simp only [if_neg h1, if_pos h2, List.mem_cons] at hmem
    rcases hmem with heq | hmem
    · injection heq with _ _ hf
    · exact ih hchain.tail.tail o n f hmem
  | case5 o1 o2 rest h1 h2 ih =>
    intro hchain o n f hmem
    rw [scanned] at hmem
    simp only [if_neg h1, if_neg h2, List.mem_cons] at hmem
    rcases hmem with heq | hmem
    · cases heq
    · exact ih hchain.tail o n f hmem

end Order

/-! ## The contract of the backtrack order -/

section OrderContract

variable {α : Type} [DecidableEq α]

/-- C19: for all sequences `A` and `B`, `computeDiff A B` never has a `'removed'` operation
followed at once by an `'added'` one, so between a `'removed'` operation and any later
`'added'` one there is a `'same'` operation (inside a run of other operations all `'added'`
come before all `'removed'`); hence the scan of `renderDiff` on it never takes the
removed-then-added branch: every modified pair comes from the added-then-removed branch. -/
theorem computeDiff_added_before_removed (A B : List α) :
    ∃ ops, computeDiff A B = some ops ∧
      List.Chain' (fun o1 o2 : Op α => ¬ (o1.type = OpType.removed ∧ o2.type = OpType.added))
        ops ∧
      (∀ (before mid after : List (Op α)) (r a : Op α),
        ops = before ++ r :: (mid ++ a :: after) →
        r.type = OpType.removed → a.type = OpType.added → ∃ s ∈ mid, s.type = OpType.same) ∧
      ∃ items n, renderDiff ops = some (items, n) ∧
        ∀ (oldLine newLine : α) (removedFirst : Bool),
          Item.modified oldLine newLine removedFirst ∈ items → removedFirst = false := by
  have hchain : List.Chain'
      (fun o1 o2 : Op α => ¬ (o1.type = OpType.removed ∧ o2.type = OpType.added))
      (pushed A.reverse B.reverse).reverse := by
    rw [List.chain'_reverse]
    exact (pushed_chain A.reverse B.reverse).imp (fun o1 o2 h hc => h ⟨hc.2, hc.1⟩)
  refine ⟨_, computeDiff_eq A B, hchain, ?_, _, _, renderDiff_eq _, ?_⟩
  · intro before mid after r a hsplit hr ha
    rw [hsplit] at hchain
    exact same_between_of_chain mid r a after hchain.right_of_append hr ha
  · exact scanned_flags_of_chain _ hchain

/-- C20: for all sequences `A`, `B` and `S`, `computeDiff (A ++ S) (B ++ S)` is
`computeDiff A B` followed by one `'same'` operation for each element of `S`. -/
theorem computeDiff_common_suffix (A B S : List α) :
    ∃ ops, computeDiff A B = some ops ∧
      computeDiff (A ++ S) (B ++ S) = some (ops ++ S.map (fun s => ⟨OpType.same, s⟩)) := by
  refine ⟨_, computeDiff_eq A B, ?_⟩
  rw [computeDiff_eq, List.reverse_append, List.reverse_append, pushed_append_common,
    List.reverse_append, ← List.map_reverse, List.reverse_reverse]

/-- C18: for all sequences `A` (length `m`) and `B` (length `n`), no array access of
`computeDiff` is out of bounds: the fill returns a table of `m + 1` rows of `n + 1` columns,
the three backtrack loops end within their fuel with `i = 0` and `j = 0`, and `computeDiff`
returns the operations they pushed, reversed. -/
theorem computeDiff_in_bounds (A B : List α) :
    ∃ dp s, fillTable A B A.length B.length (newTable A.length B.length) = some dp ∧
      dp.length = A.length + 1 ∧ (∀ row ∈ dp, row.length = B.length + 1) ∧
      backtrack A B dp (A.length + B.length) (A.length + B.length) ⟨A.length, B.length, []⟩
        = some s ∧
      s.i = 0 ∧ s.j = 0 ∧ computeDiff A B = some s.ops.reverse := by
  refine ⟨_, _, fillTable_eq A B, ?_, ?_,
    backtrack_eq A B (A.length + B.length) (by omega) (by omega) (A.length + B.length)
      A.length B.length [] (Nat.le_refl _) (Nat.le_refl _) (Nat.le_refl _), rfl, rfl, ?_⟩
  · simp [tableOf]
  · intro row hrow
    simp only [tableOf, List.mem_map] at hrow
    obtain ⟨r, _, rfl⟩ := hrow
    simp
  · rw [computeDiff_eq]
    simp

end OrderContract

/-! ## `diffWords` -/

section Words

/-- The body of `diffWords` after the tokenization is the body of `computeDiff`. -/
theorem diffWords_eq_bind (oldLine newLine : JSString) :
    diffWords oldLine newLine
      = (tokenizeWords oldLine).bind (fun a => (tokenizeWords newLine).bind (fun b =>
          computeDiff a b)) := by
  rfl

theorem tokenizeWords_flatten (line : JSString) :
    ∃ toks, tokenizeWords line = some toks ∧ toks.flatten = line := by
  by_cases h : line = []
  · subst h
    exact ⟨[], by simp [tokenizeWords], rfl⟩
  · obtain ⟨toks, h1, h2⟩ := tokenizeWords_tokens line h
    exact ⟨toks, h1, by simpa using h2.flatten_eq⟩

theorem flatten_filter_nonempty {β : Type} (l : List (List β)) :
    (l.filter (fun t => !t.isEmpty)).flatten = l.flatten := by
  induction l with
  | nil => rfl
  | cons t l ih =>
    cases t with
    | nil => simpa [List.filter_cons] using ih
    | cons x t => simp [List.filter_cons, ih]

/-- The text of the children after `appendWordTokens`: the text before, then the values of
the tokens of type `'same'` or `focusType`. -/
theorem renderedText_appendWordTokens (tokens : List (Op JSString)) (focusType : OpType) :
    ∀ lineEl : List Span,
      renderedText (appendWordTokens lineEl tokens focusType)
        = renderedText lineEl ++
          ((tokens.filter (fun o => decide (o.type = OpType.same ∨ o.type = focusType))).map
            Op.value).flatten := by
  induction tokens with
  | nil => intro lineEl; simp [appendWordTokens]
  | cons token tokens ih =>
    intro lineEl
    unfold appendWordTokens at ih ⊢
    rw [List.foldl_cons, ih]
    rcases token with ⟨t, v⟩
    by_cases hv : v = []
    · subst hv
      cases t <;> cases focusType <;> simp [List.filter_cons]
    · cases t <;> cases focusType <;> simp [List.filter_cons, hv, renderedText]

end Words

/-! ## The contract of `diffWords` -/

section WordsContract

/-- C15: for all line strings `oldLine` and `newLine`, the values of the `'same'` and
`'removed'` tokens of `diffWords oldLine newLine` concatenate to `oldLine` and those of the
`'same'` and `'added'` tokens to `newLine`; leaving out the zero-length tokens changes
neither, and the text `appendWordTokens` renders is `oldLine` for focus `'removed'` and
`newLine` for focus `'added'`. -/
theorem diffWords_reconstructs (oldLine newLine : JSString) :
    ∃ ops, diffWords oldLine newLine = some ops ∧
      (oldSide ops).flatten = oldLine ∧ (newSide ops).flatten = newLine ∧
      ((oldSide ops).filter (fun t => !t.isEmpty)).flatten = oldLine ∧
      ((newSide ops).filter (fun t => !t.isEmpty)).flatten = newLine ∧
      renderedText (appendWordTokens [] ops OpType.removed) = oldLine ∧
      renderedText (appendWordTokens [] ops OpType.added) = newLine := by
  obtain ⟨a, ha, hfa⟩ := tokenizeWords_flatten oldLine
  obtain ⟨b, hb, hfb⟩ := tokenizeWords_flatten newLine
  have hold : oldSide (pushed a.reverse b.reverse).reverse = a := by
    rw [oldSide_reverse, pushed_oldSide, List.reverse_reverse]
  have hnew : newSide (pushed a.reverse b.reverse).reverse = b := by
    rw [newSide_reverse, pushed_newSide, List.reverse_reverse]
  refine ⟨(pushed a.reverse b.reverse).reverse, ?_, ?_, ?_, ?_, ?_, ?_, ?_⟩
  · rw [diffWords_eq_bind, ha, hb, Option.some_bind, Option.some_bind, computeDiff_eq]
  · rw [hold, hfa]
  · rw [hnew, hfb]
  · rw [flatten_filter_nonempty, hold, hfa]
  · rw [flatten_filter_nonempty, hnew, hfb]
  · rw [renderedText_appendWordTokens]
    have h : (List.map Op.value (List.filter
        (fun o => decide (o.type = OpType.same ∨ o.type = OpType.removed))
        (pushed a.reverse b.reverse).reverse)) = a := hold
    rw [h, hfa]
    simp [renderedText]
  · rw [renderedText_appendWordTokens]
    have h : (List.map Op.value (List.filter
        (fun o => decide (o.type = OpType.same ∨ o.type = OpType.added))
        (pushed a.reverse b.reverse).reverse)) = b := hnew
    rw [h, hfb]
    simp [renderedText]

/-- C16: for all strings `oldLine` and `newLine`, `diffWords oldLine newLine` is
`computeDiff` of `tokenizeWords oldLine` and `tokenizeWords newLine`. -/
theorem diffWords_same_algorithm (oldLine newLine : JSString) :
    diffWords oldLine newLine
      = (tokenizeWords oldLine).bind (fun a => (tokenizeWords newLine).bind (fun b =>
          computeDiff a b)) := by
  unfold diffWords computeDiff fillTable
  rfl

/-- C17: `diffWords "hello world" "hello there"` has exactly four operations: first
`"hello"` as `'same'`, then the white-space token `" "` as `'same'`, then `"there"` as
`'added'` and `"world"` as `'removed'`. -/
theorem diffWords_hello :
    diffWords (utf16 "hello world") (utf16 "hello there")
      = some [⟨OpType.same, utf16 "hello"⟩, ⟨OpType.same, utf16 " "⟩,
          ⟨OpType.added, utf16 "there"⟩, ⟨OpType.removed, utf16 "world"⟩] := by
  decide

end WordsContract

end SecureTextCompare
